import Mathlib

/-!
# roulette — `rule.go`

A shallow embedding of the rule engine of `rule.go`: the per-rule validator
`Rule.isValid`, the ruleset type filter `TextTemplateRuleset.isValidForTypes`,
the type classifier `getTypes`, the context flattener `getTemplateData` and the
evaluation loop `Execute`.

Conventions of the embedding.

* A Go `error` is an `Option String`: `none` is the nil error, `some msg` an
  error value.
* A Go slice that the code tests against `nil` is an `Option (List String)`
  (`none` is the nil slice); a slice of which only `len` and `range` are used is
  a `List String`.
* Go `int` values that are only compared or counted are `Int`/`Nat`; no
  arithmetic in this file can overflow a 64-bit integer on a slice that fits in
  memory.
* A Go panic is the result `none` of an `Option`-valued function.
* Go maps with string keys are functions `String → Option _`.
* The Go standard library functions the code calls (`sort.Search`,
  `sort.SearchStrings`, `sort.Strings`, `strings.Split`, `strings.Trim`,
  `strings.TrimSpace`, `strconv.Itoa`, `strconv.ParseBool`, the part of
  `reflect` that is used) are modelled after the library's documented behaviour.
* The compiled template of a rule and its execution belong to `text/template`;
  they are a parameter of `Execute` (an `Evaluator`).
-/

namespace roulette

/-! ## Go standard library -/

/-- Go's `a >= b` on strings: lexicographic comparison (Go compares bytes, which for
UTF-8 orders strings exactly as comparing code points does). -/
def stringGE (a b : String) : Bool := decide (b.toList ≤ a.toList)

/-- The loop of `sort.Search`: `for i < j { h := (i+j)/2; if !f(h) { i = h+1 } else { j = h } }`,
returning `i`. The first argument bounds the number of iterations; `j - i` iterations
always suffice (`sort.searchLoop_fuel`). -/
def sort.searchLoop (f : Nat → Bool) : Nat → Nat → Nat → Nat
  | 0, i, _ => i
  | fuel + 1, i, j =>
    if i < j then
      let h := (i + j) / 2
      if !f h then sort.searchLoop f fuel (h + 1) j else sort.searchLoop f fuel i h
    else i

/-- Go's `sort.Search(n, f)`: binary search over `[0, n)`. -/
def sort.Search (n : Nat) (f : Nat → Bool) : Nat := sort.searchLoop f n 0 n

/-- Go's `sort.SearchStrings(a, x)`, which is `sort.Search(len(a), func(i) { a[i] >= x })`. -/
def sort.SearchStrings (a : List String) (x : String) : Nat :=
  sort.Search a.length (fun i => stringGE (a.getD i "") x)

/-- Go's `sort.Strings`: the strings in increasing order. Strings that compare equal are
identical, so every sorting algorithm returns the same slice; insertion sort is used here. -/
def sort.Strings (a : List String) : List String :=
  a.insertionSort (fun x y => stringGE y x = true)

/-- Go's `strconv.Itoa` on the non-negative integers the code passes to it. -/
def strconv.Itoa (i : Nat) : String := Nat.repr i

/-- Go's `strconv.ParseBool`: `none` is the error result. -/
def strconv.ParseBool (s : String) : Option Bool :=
  if s ∈ ["1", "t", "T", "TRUE", "true", "True"] then some true
  else if s ∈ ["0", "f", "F", "FALSE", "false", "False"] then some false
  else none

/-- Go's `unicode.IsSpace`. -/
def unicode.IsSpace (c : Char) : Bool :=
  let n := c.toNat
  n == 0x09 || n == 0x0A || n == 0x0B || n == 0x0C || n == 0x0D || n == 0x20 ||
  n == 0x85 || n == 0xA0 || n == 0x1680 || (0x2000 ≤ n && n ≤ 0x200A) ||
  n == 0x2028 || n == 0x2029 || n == 0x202F || n == 0x205F || n == 0x3000

/-- Removes the leading and the trailing characters that satisfy `p`. -/
def strings.trimFunc (p : Char → Bool) (s : String) : String :=
  String.mk (((s.toList.dropWhile p).reverse.dropWhile p).reverse)

/-- Go's `strings.TrimSpace`. -/
def strings.TrimSpace (s : String) : String := strings.trimFunc unicode.IsSpace s

/-- Go's `strings.Trim(s, cutset)`: removes the leading and trailing code points contained
in `cutset`. -/
def strings.Trim (s cutset : String) : String :=
  strings.trimFunc (fun c => cutset.toList.contains c) s

/-- The scan of `strings.Split` for a one-character separator; `cur` holds the current
piece, reversed. -/
def strings.splitAux (sep : Char) : List Char → List Char → List (List Char)
  | [], cur => [cur.reverse]
  | c :: cs, cur =>
    if c = sep then cur.reverse :: strings.splitAux sep cs []
    else strings.splitAux sep cs (c :: cur)

/-- Go's `strings.Split(s, sep)` for a one-character separator (the code splits on `"."`);
the result always has at least one element. -/
def strings.Split (s : String) (sep : Char) : List String :=
  (strings.splitAux sep s.toList []).map String.mk

/-! ## Values and reflection -/

/-- Go's `reflect.Kind` (unsafe pointers left out). -/
inductive Kind where
  | Invalid | Bool | Int | Int8 | Int16 | Int32 | Int64
  | Uint | Uint8 | Uint16 | Uint32 | Uint64 | Uintptr
  | Float32 | Float64 | Complex64 | Complex128
  | Array | Chan | Func | Interface | Map | Ptr | Slice | String | Struct
deriving DecidableEq, Repr

/-- What the code observes of a `reflect.Type`. -/
structure GoType where
  /-- `Type.String()`. -/
  name : String
  /-- `Type.Kind()`. -/
  kind : Kind
  /-- `Type.PkgPath()`: the import path of a defined type, `""` for any other type. -/
  pkgPath : String
  /-- `Type.Elem().String()`; `none` where `Elem()` panics (the kind is not Array, Chan,
  Map, Ptr or Slice). -/
  elem : Option String
deriving DecidableEq, Repr

/-- The string form of the type `map[string]interface{}`, `"map[string]interface {}"`. -/
def genericMapName : String := "map[string]interface \x7b\x7d"

/-- The string form of the type `[]interface{}`, `"[]interface {}"`. -/
def genericSliceName : String := "[]interface \x7b\x7d"

/-- The string form of the type `interface{}`, `"interface {}"`. -/
def emptyInterfaceName : String := "interface \x7b\x7d"

/-- A Go value of static type `interface{}`. The code inspects the contents of a
`[]interface{}` and of a `map[string]interface{}` only; of a value of any other dynamic
type it uses the type and stores the value itself, so such a value is its type together
with a number standing for its contents. -/
inductive GoValue where
  /-- The nil interface value. -/
  | nil
  /-- A `[]interface{}`. -/
  | slice (xs : List GoValue)
  /-- A `map[string]interface{}` that is not nil. -/
  | dict (m : String → Option GoValue)
  /-- The nil `map[string]interface{}` (a typed nil map held in the interface). -/
  | nilDict
  /-- A value of any other dynamic type `t`. -/
  | other (t : GoType) (id : Nat)

/-- Go's `reflect.TypeOf`; `none` is the nil `reflect.Type` that `reflect.TypeOf(nil)`
returns, on which every method call panics. -/
def reflect.TypeOf : GoValue → Option GoType
  | .nil => none
  | .slice _ => some ⟨genericSliceName, Kind.Slice, "", some emptyInterfaceName⟩
  | .dict _ => some ⟨genericMapName, Kind.Map, "", some emptyInterfaceName⟩
  | .nilDict => some ⟨genericMapName, Kind.Map, "", some emptyInterfaceName⟩
  | .other t _ => some t

/-- Go's `reflect.ValueOf(v).Kind()`; the nil interface has kind `Invalid`. -/
def reflect.kindOf (v : GoValue) : Kind :=
  match reflect.TypeOf v with
  | none => Kind.Invalid
  | some ty => ty.kind

/-- A value is well formed when an `other` value does not claim one of the two dynamic
types that have a constructor of their own. -/
def GoValue.WellFormed : GoValue → Prop
  | .other t _ => t.name ≠ genericSliceName ∧ t.name ≠ genericMapName
  | _ => True

/-- A Go `map[string]T`. -/
abbrev GoMap (α : Type) := String → Option α

/-- The empty map. -/
def GoMap.empty {α : Type} : GoMap α := fun _ => none

/-- The map after `m[k] = v`. -/
def GoMap.set {α : Type} (m : GoMap α) (k : String) (v : α) : GoMap α :=
  fun k' => if k' = k then some v else m k'

/-! ## Rules -/

/-- The struct `ruleConfig`. The delimiter strings, the function maps and the compiled
template are used by the template engine only and are not represented; the engine is the
`Evaluator` that `Execute` takes. -/
structure ruleConfig where
  expectTypes : Option (List String)
  expectTypesErr : Option String
  noResultFunc : Bool
  templateErr : Option String
deriving DecidableEq, Repr

/-- The struct `Rule`. -/
structure Rule where
  Name : String
  Priority : Int
  Expr : String
  config : ruleConfig
deriving DecidableEq, Repr

/-- The loop of lines 56–60 of `isValid`: `true` when some index `i` of `expectTypes` has
`filterTypesArr[i] != expectTypes[i]`. It is run on slices of equal length. -/
def Rule.positionalMismatch : List String → List String → Bool
  | e :: es, f :: fs => f != e || Rule.positionalMismatch es fs
  | _, _ => false

/-- The test of lines 66–67 of `isValid`: binary search for `expectedType` in
`filterTypesArr`. -/
def Rule.found (filterTypesArr : List String) (expectedType : String) : Bool :=
  let j := sort.SearchStrings filterTypesArr expectedType
  decide (j < filterTypesArr.length) && filterTypesArr.getD j "" == expectedType

/-- The method `Rule.isValid`; the result is the returned `error`. -/
def Rule.isValid (r : Rule) (filterTypesArr : Option (List String)) : Option String :=
  match r.config.expectTypes, filterTypesArr with
  | none, _ => r.config.expectTypesErr
  | some _, none => r.config.expectTypesErr
  | some expectTypes, some filterTypesArr =>
    if filterTypesArr.length = 1 ∧ filterTypesArr.getD 0 "" = genericMapName then none
    -- less
    else if filterTypesArr.length < expectTypes.length then r.config.expectTypesErr
    -- equal to
    else if filterTypesArr.length = expectTypes.length
        ∧ Rule.positionalMismatch expectTypes filterTypesArr = true then
      r.config.expectTypesErr
    -- greater than: all expected types should be present in the template data
    else if expectTypes.all (Rule.found filterTypesArr) then none
    else r.config.expectTypesErr

/-! ## Rulesets -/

/-- The struct `textTemplateRulesetConfig`; `result` is the caller's result sink. -/
structure textTemplateRulesetConfig where
  result : GoValue
  filterTypesArr : List String
  workflowMatch : Bool

/-- The struct `TextTemplateRuleset`, without its two pools. -/
structure TextTemplateRuleset where
  Name : String
  FilterTypes : String
  FilterStrict : Bool
  DataKey : String
  ResultKey : String
  Rules : List Rule
  PrioritiesCount : String
  Workflow : String
  config : textTemplateRulesetConfig
  limit : Int

/-- The method `Swap` of the ruleset's `sort.Interface`; `none` when an index is out of
range. -/
def TextTemplateRuleset.Swap (t : TextTemplateRuleset) (i j : Nat) :
    Option TextTemplateRuleset :=
  match t.Rules.get? i, t.Rules.get? j with
  | some ri, some rj => some { t with Rules := (t.Rules.set i rj).set j ri }
  | _, _ => none

/-- The loop of lines 121–135 of `isValidForTypes` over the declared filter types, from
index `i` on, followed by the final `return false`. -/
def TextTemplateRuleset.filterLoop (filterStrict : Bool) (declared : List String) :
    Nat → List String → Bool
  | _, [] => false
  | i, v :: rest =>
    let j := sort.SearchStrings declared v
    let found := decide (j < declared.length) && declared.getD i "" == v
    if !found then
      if filterStrict then false
      else TextTemplateRuleset.filterLoop filterStrict declared (i + 1) rest
    else
      -- filtering is not strict and at least one match found
      if !filterStrict then true
      else TextTemplateRuleset.filterLoop filterStrict declared (i + 1) rest

/-- The method `TextTemplateRuleset.isValidForTypes`. -/
def TextTemplateRuleset.isValidForTypes (t : TextTemplateRuleset)
    (filterTypesArr : List String) : Bool :=
  if filterTypesArr.length = 0 then false
  else if t.config.filterTypesArr.length ≠ filterTypesArr.length ∧ t.FilterStrict = true then
    false
  else
    TextTemplateRuleset.filterLoop t.FilterStrict t.config.filterTypesArr 0
      t.config.filterTypesArr

/-! ## Type classifier -/

/-- Lines 148–152 of `getTypes` (and 213–217 of `getTemplateData`): the type name of a
list element, `reflect.TypeOf(v).Elem().String()` for a pointer or interface kind and
`reflect.TypeOf(v).String()` otherwise. `none` is a panic (a nil element, whose
`reflect.TypeOf` is nil). -/
def elemTypeName (v : GoValue) : Option String :=
  match reflect.TypeOf v with
  | none => none
  | some ty =>
    if reflect.kindOf v = Kind.Ptr ∨ reflect.kindOf v = Kind.Interface then ty.elem
    else some ty.name

/-- The loop of lines 147–155 of `getTypes`: one type name per element, in order. -/
def getTypesList : List GoValue → Option (List String)
  | [] => some []
  | v :: vs =>
    match elemTypeName v with
    | none => none
    | some typeName =>
      match getTypesList vs with
      | none => none
      | some types => some (typeName :: types)

/-- The method `TextTemplateRuleset.getTypes` (it does not use its receiver); `none` is a
panic. -/
def getTypes (vals : GoValue) : Option (List String) :=
  match vals with
  | .slice xs => getTypesList xs
  | v =>
    match reflect.TypeOf v with
    | none => none
    | some ty =>
      match ty.elem with
      | none => none
      | some typeName => some [typeName]

/-! ## Context flattener -/

/-- What `valsData` holds under a key: a value, or the map `nestedMap` itself. The
latter is stored by reference (line 246), so what a reader of `valsData` finds there is
`nestedMap` as it is when `getTemplateData` returns. -/
inductive Slot where
  | val (v : GoValue)
  | nested

/-- The local variables of `getTemplateData` that the loop over a list input updates.
`valsNil` says that `valsData` is the nil map (line 203 has assigned it a nil generic
map): a nil map reads as empty, and a write into it panics. -/
structure FlattenState where
  valsData : GoMap Slot
  typeArrayIndex : GoMap Nat
  pkgPaths : List String
  nestedMap : GoMap GoValue
  valsNil : Bool := false

/-- The type names of the first case of the inner type switch (line 188). -/
def sliceCaseNames : List String :=
  ["[]string", "[]int", "[]int32", "[]int64", "[]bool", "[]float32", "[]float64",
   genericSliceName]

/-- The type names of the second case of the inner type switch (line 196). -/
def mapCaseNames : List String := ["map[string]int", "map[string]string", "map[string]bool"]

/-- The type names of the fourth case of the inner type switch (line 206). -/
def basicCaseNames : List String := ["bool", "int", "int32", "int64", "float32", "float64"]

/-- The default case of the inner type switch (lines 211–246) for a value of type `ty`. -/
def flattenComposite (val : GoValue) (ty : GoType) (st : FlattenState) :
    Option FlattenState :=
  let typeName? := if ty.kind = Kind.Ptr ∨ ty.kind = Kind.Interface then ty.elem
    else some ty.name
  match typeName? with
  | none => none
  | some typeName =>
    let pkgPaths := if ty.pkgPath ≠ "" then st.pkgPaths else strings.Split typeName '.'
    let pkgTypeName := if ty.pkgPath ≠ "" then ty.pkgPath else pkgPaths.getLastD ""
    let index := match st.typeArrayIndex pkgTypeName with
      | none => 0
      | some n => n + 1
    let nestedMap := match st.typeArrayIndex pkgTypeName with
      | none => st.nestedMap.set pkgTypeName val
      | some _ => st.nestedMap
    let typeArrayIndex := st.typeArrayIndex.set pkgTypeName index
    let indexPkgTypeName := pkgTypeName ++ strconv.Itoa index
    let nestedMap := nestedMap.set indexPkgTypeName val
    -- `pkgPaths[:len(pkgPaths)-1]` panics on an empty `pkgPaths`
    if pkgPaths = [] then none
    else
      let packagePath := pkgPaths.dropLast.foldl (fun acc p => acc ++ p) ""
      -- the write of line 246 panics on a nil `valsData`
      if st.valsNil then none
      else
        some { valsData := st.valsData.set packagePath Slot.nested,
               typeArrayIndex := typeArrayIndex,
               pkgPaths := pkgPaths,
               nestedMap := nestedMap,
               valsNil := false }

set_option linter.unusedVariables false in
/-- One iteration of the loop of lines 185–249 of `getTemplateData`, for the element
`val` at index `i`; `none` is a panic: that of `reflect` on a nil element, of the slice
expression of line 242, or of a write into `valsData` while it is the nil map. Line 203
makes `valsData` the generic map itself; here it becomes a map with the entries of that
map, which is the same as long as the map has not been `valsData` before in the same
call (a generic map that occurs twice in the input is treated as two maps with equal
entries). -/
def flattenStep (i : Nat) (val : GoValue) (st : FlattenState) : Option FlattenState :=
  match val with
  | .dict m => some { st with valsData := fun k => (m k).map Slot.val, valsNil := false }
  | .nilDict => some { st with valsData := GoMap.empty, valsNil := true }
  | _ =>
    match reflect.TypeOf val with
    | none => none
    | some ty =>
      if ty.name ∈ sliceCaseNames then
        let typ := ty.name
        let typeName := strings.Trim typ "[]"
        -- the second assignment trims `typ` again, not `typeName`
        let typeName := strings.Trim typ "\x7b\x7d"
        if st.valsNil then none
        else
          some { st with
            valsData := st.valsData.set (typeName ++ "slice" ++ strconv.Itoa i) (Slot.val val) }
      else if ty.name ∈ mapCaseNames then
        let typ := ty.name
        let typeName := strings.Trim typ "["
        -- the second assignment trims `typ` again, not `typeName`
        let typeName := strings.Trim typ "]"
        if st.valsNil then none
        else
          some { st with
            valsData := st.valsData.set (typeName ++ strconv.Itoa i) (Slot.val val) }
      else if ty.name ∈ basicCaseNames then
        let typeName := ty.name
        if st.valsNil then none
        else
          some { st with
            valsData := st.valsData.set (typeName ++ strconv.Itoa i) (Slot.val val) }
      else flattenComposite val ty st

/-- The loop of lines 185–249 of `getTemplateData` over the elements from index `i` on. -/
def flattenLoop : Nat → List GoValue → FlattenState → Option FlattenState
  | _, [], st => some st
  | i, val :: rest, st =>
    match flattenStep i val st with
    | none => none
    | some st' => flattenLoop (i + 1) rest st'

/-- Modelled from the spec: the map that `mapBuf.get()` hands out. The pool is not in
`rule.go`; by section 5 of the spec a pooled map is cleared before it is handed out
again, so it is the empty map. -/
def mapBufGet {α : Type} : GoMap α := GoMap.empty

/-- The map `valsData` as a reader finds it once `getTemplateData` has returned: a key
that holds `nestedMap` yields the final `nestedMap`. -/
def resolveVals (valsData : GoMap Slot) (nestedMap : GoMap GoValue) : GoMap GoValue :=
  fun k =>
    match valsData k with
    | none => none
    | some (Slot.val v) => some v
    | some Slot.nested => some (GoValue.dict nestedMap)

/-- The state in which the loop over a list input starts: `valsData` and `nestedMap`
from the pool, an empty `typeArrayIndex`, a nil `pkgPaths`. -/
def FlattenState.init : FlattenState :=
  { valsData := mapBufGet, typeArrayIndex := GoMap.empty, pkgPaths := [],
    nestedMap := mapBufGet, valsNil := false }

/-- The type switch of lines 180–259 of `getTemplateData`: the final `valsData`, whether
it is the nil map, and the final `nestedMap`; `none` is a panic. -/
def flattenVals (vals : GoValue) : Option (GoMap Slot × Bool × GoMap GoValue) :=
  match vals with
  | .slice xs =>
    match flattenLoop 0 xs FlattenState.init with
    | none => none
    | some st => some (st.valsData, st.valsNil, st.nestedMap)
  | v =>
    match reflect.TypeOf v with
    | none => none
    | some ty =>
      match ty.elem with
      | none => none
      | some typeName =>
        let pkgPaths := strings.Split typeName '.'
        match pkgPaths.get? 0, pkgPaths.get? 1 with
        | some p0, some p1 =>
          some ((mapBufGet : GoMap Slot).set p0
                  (Slot.val (GoValue.dict ((GoMap.empty : GoMap GoValue).set p1 v))),
                false, GoMap.empty)
        | _, _ => none

/-- The method `TextTemplateRuleset.getTemplateData`: the map `tmplData` after the call;
`none` is a panic. -/
def TextTemplateRuleset.getTemplateData (t : TextTemplateRuleset)
    (tmplData : GoMap GoValue) (vals : GoValue) : Option (GoMap GoValue) :=
  match flattenVals vals with
  | none => none
  | some (valsData, valsNil, nestedMap) =>
    -- the write of line 261 panics on a nil `valsData`
    if valsNil then none
    else
      let valsData := valsData.set t.ResultKey (Slot.val t.config.result)
      some (tmplData.set t.DataKey (GoValue.dict (resolveVals valsData nestedMap)))

/-! ## Evaluation engine -/

/-- The expression evaluator, `rule.config.template.Execute(buf, tmplData)`: from the
state of everything the expression can change (the result sink, above all), the rule and
the template data, the state afterwards and either the text written to the buffer or
`none` for an error. The buffer that `bytesBuf.get()` hands out is taken to be empty
(section 5 of the spec), so `buf.String()` is the text written. -/
abbrev Evaluator (σ : Type) := σ → Rule → GoMap GoValue → σ × Option String

/-- How one iteration of the loop of `Execute` ends. -/
inductive Outcome where
  /-- `continue` at line 296: `noResultFunc` is set. -/
  | skipNoResultFunc
  /-- `continue` at line 303: `isValid` returned an error. -/
  | skipInvalid
  /-- `continue` at line 308: the cached compile error is set. -/
  | skipTemplateErr
  /-- `continue` at line 317: the expression was executed and returned an error. -/
  | execError
  /-- `continue` at line 329: the output is not a boolean literal. -/
  | parseError
  /-- The output parsed to `false`. -/
  | resultFalse
  /-- The output parsed to `true`. -/
  | resultTrue
deriving DecidableEq, Repr

/-- The outcomes in which the expression of the rule was executed (line 314 was reached). -/
def Outcome.executed : Outcome → Bool
  | .execError | .parseError | .resultFalse | .resultTrue => true
  | _ => false

/-- The state of the loop of `Execute`: the evaluator's state, `successCount`, and a
record, oldest first, of the rules the loop has visited with the outcome of each. The
record is not in the source; the claims about the order of evaluation are stated on it. -/
structure Run (σ : Type) where
  sink : σ
  successCount : Int
  trace : List (Rule × Outcome)

/-- The rules whose expression was executed, in order. -/
def Run.executedRules {σ : Type} (run : Run σ) : List Rule :=
  (run.trace.filter (fun e => e.2.executed)).map Prod.fst

/-- The rules the loop visited, in order. -/
def Run.visitedRules {σ : Type} (run : Run σ) : List Rule := run.trace.map Prod.fst

/-- The loop of lines 292–340 of `Execute` over the remaining rules. -/
def evalRules {σ : Type} (exec : Evaluator σ) (limit : Int) (types : Option (List String))
    (tmplData : GoMap GoValue) : List Rule → Run σ → Run σ
  | [], run => run
  | rule :: rest, run =>
    if rule.config.noResultFunc then
      evalRules exec limit types tmplData rest
        { run with trace := run.trace ++ [(rule, Outcome.skipNoResultFunc)] }
    else if (rule.isValid types).isSome then
      evalRules exec limit types tmplData rest
        { run with trace := run.trace ++ [(rule, Outcome.skipInvalid)] }
    else if rule.config.templateErr.isSome then
      evalRules exec limit types tmplData rest
        { run with trace := run.trace ++ [(rule, Outcome.skipTemplateErr)] }
    else
      match exec run.sink rule tmplData with
      | (sink, none) =>
        evalRules exec limit types tmplData rest
          { run with sink := sink, trace := run.trace ++ [(rule, Outcome.execError)] }
      | (sink, some buf) =>
        match strconv.ParseBool (strings.TrimSpace buf) with
        | none =>
          evalRules exec limit types tmplData rest
            { run with sink := sink, trace := run.trace ++ [(rule, Outcome.parseError)] }
        | some false =>
          evalRules exec limit types tmplData rest
            { run with sink := sink, trace := run.trace ++ [(rule, Outcome.resultFalse)] }
        | some true =>
          -- n high priority rules successful, break
          let successCount := run.successCount + 1
          if successCount = limit then
            { sink := sink, successCount := successCount,
              trace := run.trace ++ [(rule, Outcome.resultTrue)] }
          else
            evalRules exec limit types tmplData rest
              { sink := sink, successCount := successCount,
                trace := run.trace ++ [(rule, Outcome.resultTrue)] }

/-- The state in which the loop of `Execute` starts, and in which `Execute` returns when
it returns before the loop. -/
def Run.init {σ : Type} (s : σ) : Run σ := ⟨s, 0, []⟩

/-- The method `TextTemplateRuleset.Execute`, run with the evaluator `exec` from the
evaluator state `s`; `none` is a panic. -/
def TextTemplateRuleset.Execute {σ : Type} (exec : Evaluator σ) (t : TextTemplateRuleset)
    (vals : GoValue) (s : σ) : Option (Run σ) :=
  if !t.config.workflowMatch then some (Run.init s)
  else
    match getTypes vals with
    | none => none
    | some types =>
      let types := sort.Strings types
      if !t.isValidForTypes types then some (Run.init s)
      else
        let types := types.take 0
        match t.getTemplateData mapBufGet vals with
        | none => none
        | some tmplData => some (evalRules exec t.limit (some types) tmplData t.Rules (Run.init s))

/-- A slice of strings is sorted in Go's string order, as `sort.Strings` leaves it. -/
abbrev SortedStrings (a : List String) : Prop := a.Sorted (fun x y => stringGE y x = true)

/-- The three checks of lines 294–309 of `Execute` that skip a rule before its expression
is executed: `noResultFunc`, the validator, the cached compile error. -/
def Rule.skipped (types : Option (List String)) (rule : Rule) : Bool :=
  rule.config.noResultFunc || (rule.isValid types).isSome || rule.config.templateErr.isSome

/-- One iteration of the loop of `Execute` on `rule` (lines 294–330), from the evaluator
state `s`: the evaluator state afterwards and how the iteration ended. -/
def ruleOutcome {σ : Type} (exec : Evaluator σ) (types : Option (List String))
    (tmplData : GoMap GoValue) (rule : Rule) (s : σ) : σ × Outcome :=
  if rule.config.noResultFunc then (s, Outcome.skipNoResultFunc)
  else if (rule.isValid types).isSome then (s, Outcome.skipInvalid)
  else if rule.config.templateErr.isSome then (s, Outcome.skipTemplateErr)
  else
    match exec s rule tmplData with
    | (sink, none) => (sink, Outcome.execError)
    | (sink, some buf) =>
      match strconv.ParseBool (strings.TrimSpace buf) with
      | none => (sink, Outcome.parseError)
      | some false => (sink, Outcome.resultFalse)
      | some true => (sink, Outcome.resultTrue)

/-- The loop state after an iteration on `rule` that ended as `o`. -/
def Run.record {σ : Type} (run : Run σ) (rule : Rule) (o : σ × Outcome) : Run σ :=
  { sink := o.1,
    successCount := if o.2 = Outcome.resultTrue then run.successCount + 1 else run.successCount,
    trace := run.trace ++ [(rule, o.2)] }

/-- The number of recorded iterations whose output parsed to `true`. -/
def countTrue (trace : List (Rule × Outcome)) : Nat :=
  (trace.filter (fun e => decide (e.2 = Outcome.resultTrue))).length

/-! ## Concrete inputs -/

/-- A ruleset with the given strictness, declared filter types, rules and success limit,
whose workflow matches. -/
def mkRuleset (filterStrict : Bool) (declared : List String) (rules : List Rule)
    (limit : Int) : TextTemplateRuleset :=
  { Name := "ruleset", FilterTypes := "", FilterStrict := filterStrict, DataKey := "data",
    ResultKey := "result", Rules := rules, PrioritiesCount := "", Workflow := "",
    config := { result := GoValue.nil, filterTypesArr := declared, workflowMatch := true },
    limit := limit }

/-- A rule with the given name, priority, expected types and expectation error, without
compile error. -/
def mkRule (name : String) (priority : Int) (expectTypes : Option (List String))
    (expectTypesErr : Option String) : Rule :=
  { Name := name, Priority := priority, Expr := "",
    config := { expectTypes := expectTypes, expectTypesErr := expectTypesErr,
                noResultFunc := false, templateErr := none } }

/-- The Go value `int(n)`. -/
def goInt (n : Nat) : GoValue := GoValue.other ⟨"int", Kind.Int, "", none⟩ n

/-- An evaluator whose state counts the executed expressions and whose every output is
`" true\n"`. -/
def countingTrue : Evaluator Nat := fun n _ _ => (n + 1, some " true\n")

/-! ## Notions used in the statements about the classifier and the flattener -/

/-- What Go guarantees of the dynamic type of a value held in an `interface{}`: its kind
is neither `Invalid` nor `Interface` (`reflect.ValueOf` unwraps interfaces), and a
pointer type has an element type. -/
abbrev GoType.Dynamic (t : GoType) : Prop :=
  t.kind ≠ Kind.Invalid ∧ t.kind ≠ Kind.Interface ∧ (t.kind = Kind.Ptr → t.elem.isSome = true)

/-- The type signature of section 4.1 of the spec, in the spec's words: the referenced
type's signature for a pointer, the type's own signature otherwise. -/
def typeSignature (t : GoType) : Option String :=
  if t.kind = Kind.Ptr then t.elem else some t.name

/-- The number that stands for the contents of a value of a named dynamic type. -/
def GoValue.ident : GoValue → Option Nat
  | .other _ id => some id
  | _ => none

/-- The entry of a `map[string]interface{}` value under a key. -/
def GoValue.entry : GoValue → String → Option GoValue
  | .dict m, k => m k
  | _, _ => none

/-- The Go value `&T{...}` for a struct type `T` whose `String()` is `typeName`
(`"pkg.T"`): a pointer, whose type has no package path. -/
def goPtr (typeName : String) (id : Nat) : GoValue :=
  GoValue.other ⟨"*" ++ typeName, Kind.Ptr, "", some typeName⟩ id

/-- An evaluator whose state counts the executed expressions and whose output is the text
of the expression itself; an empty expression is an execution error. -/
def echoExpr : Evaluator Nat :=
  fun n rule _ => (n + 1, if rule.Expr = "" then none else some rule.Expr)

/-- A rule without expected types and expectation error (which `isValid` accepts for
every classification) with the given name and expression. -/
def exprRule (name expr : String) : Rule :=
  { Name := name, Priority := 0, Expr := expr,
    config := { expectTypes := none, expectTypesErr := none,
                noResultFunc := false, templateErr := none } }

/-- The number that a list of decimal digits denotes. -/
def decimalValue (l : List Char) : Nat :=
  l.foldl (fun acc c => acc * 10 + (c.toNat - 48)) 0

/-- The string `b` is the string `a` followed by one or more decimal digits. -/
def digitExtension (a b : String) : Bool :=
  a.toList.isPrefixOf b.toList && decide (a.length < b.length) &&
    (b.toList.drop a.length).all Char.isDigit

/-- The key of lines 192, 200 and 208 of `getTemplateData` without its index: for a type
name of the first, second or fourth case of the inner type switch, what precedes the
decimal index in the key under which `valsData` holds the value. -/
def flatKeyBase (name : String) : Option String :=
  if name ∈ sliceCaseNames then some (strings.Trim name "\x7b\x7d" ++ "slice")
  else if name ∈ mapCaseNames then some (strings.Trim name "]")
  else if name ∈ basicCaseNames then some name
  else none

/-- The key under which `valsData` holds the element at index `i` when its type name is
one of the first, second or fourth case of the inner type switch. -/
def flatKey (i : Nat) (name : String) : Option String :=
  (flatKeyBase name).map (fun base => base ++ strconv.Itoa i)

/-- The key of `flatKey` for a value: a primitive or a shallow collection has one; a
generic map, a nil and a composite value have none. -/
def GoValue.flatKey (i : Nat) : GoValue → Option String
  | .dict _ => none
  | v => (reflect.TypeOf v).bind (fun ty => roulette.flatKey i ty.name)

/-- The type name `reflect.TypeOf(v).String()` of a value, `""` for nil. -/
def GoValue.typeString (v : GoValue) : String :=
  match reflect.TypeOf v with
  | some ty => ty.name
  | none => ""

/-- One of the two type names is `int` and the other is `int32` or `int64`. -/
abbrev mixesInt (a b : String) : Prop :=
  (a = "int" ∧ (b = "int32" ∨ b = "int64")) ∨ (b = "int" ∧ (a = "int32" ∨ a = "int64"))

/-- The Go value `int32(n)`. -/
def goInt32 (n : Nat) : GoValue := GoValue.other ⟨"int32", Kind.Int32, "", none⟩ n

/-- The value is a primitive or a shallow collection: it has a key of `flatKey`. -/
def GoValue.keyed (v : GoValue) : Bool := (v.flatKey 0).isSome

/-- A list of 321 elements with an `int32` at position 0 and an `int` at position 320. -/
def collidingInts : List GoValue := goInt32 1 :: (List.replicate 319 (goInt 0) ++ [goInt 7])

/-- The type name that the default case of the inner type switch computes (lines 212–217)
for a value that reaches that case and whose dynamic type has no package path, as a
pointer to a struct has none; `none` for every other value. -/
def GoValue.compositeTypeName : GoValue → Option String
  | .other t _ =>
    if t.name ∈ sliceCaseNames ∨ t.name ∈ mapCaseNames ∨ t.name ∈ basicCaseNames then none
    else if t.pkgPath ≠ "" then none
    else if t.kind = Kind.Ptr ∨ t.kind = Kind.Interface then t.elem
    else some t.name
  | _ => none

/-- The key `pkgTypeName` of lines 223–224 for such a value: the last segment of its type
name. -/
def GoValue.nestedKey (v : GoValue) : String :=
  match v.compositeTypeName with
  | some typeName => (strings.Split typeName '.').getLastD ""
  | none => ""

/-- The key `packagePath` of lines 241–244 for such a value: the segments of its type
name before the last, concatenated. -/
def GoValue.packagePath (v : GoValue) : String :=
  match v.compositeTypeName with
  | some typeName => (strings.Split typeName '.').dropLast.foldl (fun acc p => acc ++ p) ""
  | none => ""

/-- The index that lines 229–236 give the next value with the key `key`: 0 for a key
that `typeArrayIndex` does not hold, one more than the index it holds otherwise. -/
def FlattenState.nextIndex (st : FlattenState) (key : String) : Nat :=
  match st.typeArrayIndex key with
  | none => 0
  | some n => n + 1

/-- The number of elements before position `p` whose key `pkgTypeName` is `key`. -/
def earlierSameKey (xs : List GoValue) (p : Nat) (key : String) : Nat :=
  ((xs.take p).filter (fun w => decide (w.nestedKey = key))).length

/-! ## Binary search -/

theorem stringGE_iff (a b : String) : stringGE a b = true ↔ b ≤ a := by
  simp [stringGE, String.le_iff_toList_le]

theorem List.getD_eq_get_of_lt {α : Type} (l : List α) (d : α) {n : Nat} (hn : n < l.length) :
    l.getD n d = l.get ⟨n, hn⟩ := by
  rw [List.getD_eq_getElem _ _ hn, List.get_eq_getElem]

/-- Fuel: once the bound on the iterations is at least `j - i`, a larger bound does not
change the result, so `sort.searchLoop` with such a bound is the loop of `sort.Search`
run to its end. -/
theorem sort.searchLoop_fuel (f : Nat → Bool) :
    ∀ (fuel extra i j : Nat), j - i ≤ fuel →
      sort.searchLoop f (fuel + extra) i j = sort.searchLoop f fuel i j := by
  intro fuel
  induction fuel with
  | zero =>
    intro extra i j h
    cases extra with
    | zero => rfl
    | succ e =>
      have hij : ¬ i < j := by omega
      simp [sort.searchLoop, hij]
  | succ n ih =>
    intro extra i j h
    have e : n + 1 + extra = (n + extra) + 1 := by omega
    rw [e]
    unfold sort.searchLoop
    by_cases hij : i < j
    · simp only [hij, if_true]
      have h1 : j - ((i + j) / 2 + 1) ≤ n := by omega
      have h2 : (i + j) / 2 - i ≤ n := by omega
      rw [ih extra _ _ h1, ih extra _ _ h2]
    · simp [hij]

/-- The invariant of binary search: on a predicate that is monotone on `[0, n)`, the loop
returns the boundary between the indices where it is false and those where it is true. -/
theorem sort.searchLoop_spec (f : Nat → Bool) (n : Nat)
    (hmono : ∀ a b, a ≤ b → b < n → f a = true → f b = true) :
    ∀ (fuel i j : Nat), j - i ≤ fuel → i ≤ j → j ≤ n →
      (∀ k, k < i → f k = false) → (∀ k, j ≤ k → k < n → f k = true) →
      (∀ k, k < sort.searchLoop f fuel i j → f k = false) ∧
      (∀ k, sort.searchLoop f fuel i j ≤ k → k < n → f k = true) ∧
      sort.searchLoop f fuel i j ≤ n := by
  intro fuel
  induction fuel with
  | zero =>
    intro i j h hij hjn hlo hhi
    have : i = j := by omega
    subst this
    exact ⟨hlo, hhi, hjn⟩
  | succ m ih =>
    intro i j h hij hjn hlo hhi
    unfold sort.searchLoop
    by_cases hlt : i < j
    · simp only [hlt, if_true]
      have hh : (i + j) / 2 < j := by omega
      have hh' : i ≤ (i + j) / 2 := by omega
      cases hf : f ((i + j) / 2) with
      | false =>
        simp only [Bool.not_false, if_true]
        refine ih _ _ (by omega) (by omega) hjn ?_ hhi
        intro k hk
        cases hfk : f k with
        | false => rfl
        | true =>
          have := hmono k ((i + j) / 2) (by omega) (by omega) hfk
          rw [hf] at this
          exact absurd this (by simp)
      | true =>
        simp only [Bool.not_true, Bool.false_eq_true, if_false]
        refine ih _ _ (by omega) hh' (by omega) hlo ?_
        intro k hk hkn
        exact hmono _ k hk hkn hf
    · simp only [hlt, if_false]
      have : i = j := by omega
      subst this
      exact ⟨hlo, hhi, hjn⟩

/-- In a sorted slice, `sort.SearchStrings` followed by the comparison of the element at
the returned index finds exactly the strings that occur in the slice. -/
theorem Rule.found_iff_mem (a : List String) (x : String) (hs : a.Sorted (· ≤ ·)) :
    Rule.found a x = true ↔ x ∈ a := by
  have hmono : ∀ p q, p ≤ q → q < a.length →
      stringGE (a.getD p "") x = true → stringGE (a.getD q "") x = true := by
    intro p q hpq hq hp
    rw [stringGE_iff] at hp ⊢
    have hp' : p < a.length := by omega
    rw [List.getD_eq_get_of_lt _ _ hp'] at hp
    rw [List.getD_eq_get_of_lt _ _ hq]
    exact le_trans hp (hs.rel_get_of_le (a := ⟨p, hp'⟩) (b := ⟨q, hq⟩) hpq)
  obtain ⟨hlo, hhi, hle⟩ := sort.searchLoop_spec _ a.length hmono a.length 0 a.length
    (by omega) (by omega) (le_refl _) (by intro k hk; omega) (by intro k hk hk'; omega)
  constructor
  · intro h
    simp only [Rule.found, Bool.and_eq_true, decide_eq_true_eq, beq_iff_eq] at h
    obtain ⟨hj, he⟩ := h
    rw [← he, List.getD_eq_get_of_lt _ _ hj]
    exact List.get_mem _ _ _
  · intro h
    obtain ⟨m, hm⟩ := List.mem_iff_get.mp h
    have hfm : stringGE (a.getD m "") x = true := by
      rw [stringGE_iff, List.getD_eq_get_of_lt _ _ m.isLt, hm]
    have hjm : sort.SearchStrings a x ≤ m := by
      by_contra hc
      have := hlo m (by simpa [sort.SearchStrings, sort.Search] using hc)
      rw [hfm] at this
      exact absurd this (by simp)
    have hj : sort.SearchStrings a x < a.length := lt_of_le_of_lt hjm m.isLt
    have hfj : stringGE (a.getD (sort.SearchStrings a x) "") x = true :=
      hhi _ (le_refl _) hj
    rw [stringGE_iff, List.getD_eq_get_of_lt _ _ hj] at hfj
    have hle2 : a.get ⟨sort.SearchStrings a x, hj⟩ ≤ x := by
      have := hs.rel_get_of_le (a := ⟨sort.SearchStrings a x, hj⟩) (b := m) hjm
      rwa [hm] at this
    simp only [Rule.found, Bool.and_eq_true, decide_eq_true_eq, beq_iff_eq]
    refine ⟨hj, ?_⟩
    rw [List.getD_eq_get_of_lt _ _ hj]
    exact le_antisymm hle2 hfj

/-! ## Type filter -/

/-- In strict mode the loop of `isValidForTypes` never returns `true`. -/
theorem TextTemplateRuleset.filterLoop_strict (declared : List String) :
    ∀ (l : List String) (i : Nat),
      TextTemplateRuleset.filterLoop true declared i l = false := by
  intro l
  induction l with
  | nil => intro i; rfl
  | cons v rest ih =>
    intro i
    simp only [TextTemplateRuleset.filterLoop]
    split <;> simp [ih]

/-- `sort.SearchStrings` on a one-element slice, for its element. -/
theorem sort.SearchStrings_singleton (A : String) : sort.SearchStrings [A] A = 0 := by
  have h : stringGE A A = true := (stringGE_iff A A).mpr (le_refl A)
  simp [sort.SearchStrings, sort.Search, sort.searchLoop, h]

/-- C1 (the code departs from the claim): with `FilterStrict = true` and declared filter
types `[A, B]`, `isValidForTypes` returns `false` on the classification `[A, B]`, the
exact match, both for the strings `"A"`, `"B"` and for any two strings: in strict mode
every path of the function ends in `return false`. -/
theorem TextTemplateRuleset.isValidForTypes_strict_exact_match :
    (mkRuleset true ["A", "B"] [] 0).isValidForTypes ["A", "B"] = false ∧
    ∀ (t : TextTemplateRuleset) (A B : String),
      ({ t with FilterStrict := true,
                config := { t.config with filterTypesArr := [A, B] } } :
        TextTemplateRuleset).isValidForTypes [A, B] = false := by
  refine ⟨by decide, ?_⟩
  intro t A B
  simp [TextTemplateRuleset.isValidForTypes, TextTemplateRuleset.filterLoop_strict]

/-- C2 (the code departs from the claim): the ruleset with `FilterStrict = false` and the
declared filter type `"A"` is accepted by `isValidForTypes` for the classification
`["B"]`, in which no declared filter type occurs: the loop searches the declared types
for their own elements and never reads the classification. -/
theorem TextTemplateRuleset.isValidForTypes_nonstrict_not_membership :
    (mkRuleset false ["A"] [] 0).isValidForTypes ["B"] = true ∧
    ¬ ∃ x, x ∈ (mkRuleset false ["A"] [] 0).config.filterTypesArr ∧ x ∈ ["B"] := by
  refine ⟨by decide, ?_⟩
  simp [mkRuleset]

/-- C3: a ruleset with `FilterStrict = false` that declares the single filter type `A`
is accepted by `isValidForTypes` for every classification that contains `A`, whatever
else the classification contains. -/
theorem TextTemplateRuleset.isValidForTypes_nonstrict_single (t : TextTemplateRuleset)
    (A : String) (classification : List String) (hstrict : t.FilterStrict = false)
    (hdecl : t.config.filterTypesArr = [A]) (hmem : A ∈ classification) :
    t.isValidForTypes classification = true := by
  have hlen : classification.length ≠ 0 := by
    intro h
    rw [List.length_eq_zero] at h
    rw [h] at hmem
    exact absurd hmem (List.not_mem_nil A)
  simp [TextTemplateRuleset.isValidForTypes, hlen, hstrict, hdecl,
    TextTemplateRuleset.filterLoop, sort.SearchStrings_singleton]

/-- An instance of C3: declared `{A}`, classification `{A, B, C}`. -/
theorem TextTemplateRuleset.isValidForTypes_nonstrict_single_witness :
    (mkRuleset false ["A"] [] 0).isValidForTypes ["A", "B", "C"] = true :=
  TextTemplateRuleset.isValidForTypes_nonstrict_single (mkRuleset false ["A"] [] 0) "A"
    ["A", "B", "C"] rfl rfl (by decide)

/-! ## Rule validator -/

theorem SortedStrings.sorted_le {a : List String} (h : SortedStrings a) :
    a.Sorted (· ≤ ·) :=
  List.Pairwise.imp (fun {x y} hxy => (stringGE_iff y x).mp hxy) h

/-- The slice that `sort.Strings` leaves is sorted in Go's string order. -/
theorem sort.Strings_sorted (a : List String) : SortedStrings (sort.Strings a) := by
  haveI : IsTotal String (fun x y => stringGE y x = true) :=
    ⟨fun x y => by simp only [stringGE_iff]; exact le_total x y⟩
  haveI : IsTrans String (fun x y => stringGE y x = true) :=
    ⟨fun x y z h1 h2 => by rw [stringGE_iff] at *; exact le_trans h1 h2⟩
  exact List.sorted_insertionSort _ a

/-- The slice that `sort.Strings` leaves holds the same strings. -/
theorem sort.Strings_perm (a : List String) : (sort.Strings a).Perm a :=
  List.perm_insertionSort _ a

/-- The positional loop finds no mismatch exactly when the two slices are equal. -/
theorem Rule.positionalMismatch_eq_false_iff :
    ∀ (expectTypes filterTypesArr : List String),
      filterTypesArr.length = expectTypes.length →
      (Rule.positionalMismatch expectTypes filterTypesArr = false ↔
        filterTypesArr = expectTypes) := by
  intro expectTypes
  induction expectTypes with
  | nil =>
    intro filterTypesArr h
    rw [List.length_nil, List.length_eq_zero] at h
    subst h
    simp [Rule.positionalMismatch]
  | cons e es ih =>
    intro filterTypesArr h
    cases filterTypesArr with
    | nil => simp at h
    | cons f fs =>
      have hlen : fs.length = es.length := by simpa using h
      simp [Rule.positionalMismatch, ih fs hlen]

/-- The membership loop of `isValid` succeeds exactly when every expected type occurs in
the sorted classification. -/
theorem Rule.all_found_iff (expectTypes filterTypesArr : List String)
    (hs : SortedStrings filterTypesArr) :
    expectTypes.all (Rule.found filterTypesArr) = true ↔
      ∀ e ∈ expectTypes, e ∈ filterTypesArr := by
  rw [List.all_eq_true]
  constructor
  · intro h e he
    exact (Rule.found_iff_mem filterTypesArr e hs.sorted_le).mp (h e he)
  · intro h e he
    exact (Rule.found_iff_mem filterTypesArr e hs.sorted_le).mpr (h e he)

/-- The test of line 45 of `isValid` holds exactly for the one-element classification
with the generic-map signature. -/
theorem Rule.bypass_iff (filterTypesArr : List String) :
    (filterTypesArr.length = 1 ∧ filterTypesArr.getD 0 "" = genericMapName) ↔
      filterTypesArr = [genericMapName] := by
  constructor
  · rintro ⟨h1, h2⟩
    match filterTypesArr, h1, h2 with
    | [x], _, h2 => simpa using h2
  · intro h
    subst h
    simp

/-- C8: for a rule with declared expected types and a sorted classification that is not
the single generic-map signature and has at most as many entries as the rule expects,
`isValid` returns nil if the classification equals the expected types position by
position, and the expectation error of the rule otherwise (in particular whenever the
classification is shorter). -/
theorem Rule.isValid_fewer_or_equal (r : Rule) (expectTypes classification : List String)
    (hexp : r.config.expectTypes = some expectTypes)
    (hsorted : SortedStrings classification)
    (hgen : classification ≠ [genericMapName])
    (hlen : classification.length ≤ expectTypes.length) :
    r.isValid (some classification) =
      if classification = expectTypes then none else r.config.expectTypesErr := by
  have hb : ¬ (classification.length = 1 ∧ classification.getD 0 "" = genericMapName) :=
    fun h => hgen ((Rule.bypass_iff classification).mp h)
  simp only [Rule.isValid, hexp, hb, if_false]
  by_cases hlt : classification.length < expectTypes.length
  · have hne : classification ≠ expectTypes := by
      intro h
      rw [h] at hlt
      exact absurd hlt (lt_irrefl _)
    simp [hlt, hne]
  · have heq : classification.length = expectTypes.length := by omega
    simp only [hlt, if_false, heq, true_and]
    by_cases hm : Rule.positionalMismatch expectTypes classification = true
    · have hne : classification ≠ expectTypes := by
        intro h
        have := (Rule.positionalMismatch_eq_false_iff expectTypes classification heq).mpr h
        rw [hm] at this
        exact absurd this (by simp)
      simp [hm, hne]
    · have hm' : Rule.positionalMismatch expectTypes classification = false := by
        simpa using hm
      have he : classification = expectTypes :=
        (Rule.positionalMismatch_eq_false_iff expectTypes classification heq).mp hm'
      have hall : expectTypes.all (Rule.found classification) = true :=
        (Rule.all_found_iff expectTypes classification hsorted).mpr
          (by intro e h; rw [he]; exact h)
      subst he
      simp [hm', hall]

/-- Instances of C8: a rule that expects `{A, B}` is accepted for the classification
`{A, B}` and gets its expectation error for `{A}`. -/
theorem Rule.isValid_fewer_or_equal_witness :
    (mkRule "r" 1 (some ["A", "B"]) (some "expected A, B")).isValid (some ["A", "B"]) = none ∧
    (mkRule "r" 1 (some ["A", "B"]) (some "expected A, B")).isValid (some ["A"]) =
      some "expected A, B" :=
  ⟨Rule.isValid_fewer_or_equal (mkRule "r" 1 (some ["A", "B"]) (some "expected A, B"))
      ["A", "B"] ["A", "B"] rfl (by decide) (by decide) (by decide),
   Rule.isValid_fewer_or_equal (mkRule "r" 1 (some ["A", "B"]) (some "expected A, B"))
      ["A", "B"] ["A"] rfl (by decide) (by decide) (by decide)⟩

/-- C9 as stated fails: the rule that expects `{A}` and has no expectation error is
accepted (`isValid` returns nil) for the sorted classification `{B, C}`, which has more
entries than the rule expects and does not contain `A`. -/
theorem Rule.isValid_more_not_iff :
    (mkRule "r" 1 (some ["A"]) none).config.expectTypes = some ["A"] ∧
    SortedStrings ["B", "C"] ∧
    ["A"].length < ["B", "C"].length ∧
    (mkRule "r" 1 (some ["A"]) none).isValid (some ["B", "C"]) = none ∧
    ¬ ((mkRule "r" 1 (some ["A"]) none).isValid (some ["B", "C"]) = none ↔
        ∀ e ∈ ["A"], e ∈ ["B", "C"]) := by
  decide

/-- C9, amended: for a rule with declared expected types and a sorted classification
with strictly more entries than the rule expects, `isValid` returns nil if every
expected type occurs somewhere in the classification and the expectation error of the
rule otherwise; so for a rule whose expectation error is not nil, it returns nil if and
only if every expected type occurs in the classification. -/
theorem Rule.isValid_more (r : Rule) (expectTypes classification : List String)
    (hexp : r.config.expectTypes = some expectTypes)
    (hsorted : SortedStrings classification)
    (hlen : expectTypes.length < classification.length) :
    (r.isValid (some classification) =
      if ∀ e ∈ expectTypes, e ∈ classification then none else r.config.expectTypesErr) ∧
    (r.config.expectTypesErr ≠ none →
      (r.isValid (some classification) = none ↔ ∀ e ∈ expectTypes, e ∈ classification)) := by
  have hmain : r.isValid (some classification) =
      if ∀ e ∈ expectTypes, e ∈ classification then none else r.config.expectTypesErr := by
    by_cases hb : classification.length = 1 ∧ classification.getD 0 "" = genericMapName
    · have hnil : expectTypes = [] := by
        rw [← List.length_eq_zero]
        omega
      subst hnil
      simp [Rule.isValid, hexp, hb]
    · have hlt : ¬ classification.length < expectTypes.length := by omega
      have hne : ¬ classification.length = expectTypes.length := by omega
      by_cases hall : ∀ e ∈ expectTypes, e ∈ classification
      · have hf := (Rule.all_found_iff expectTypes classification hsorted).mpr hall
        rw [if_pos hall]
        simp [Rule.isValid, hexp, hb, hlt, hne, hf]
      · have hnf : ¬ expectTypes.all (Rule.found classification) = true :=
          fun h => hall ((Rule.all_found_iff expectTypes classification hsorted).mp h)
        rw [if_neg hall]
        simp only [Rule.isValid, hexp, hb, hlt, hne, if_false, false_and]
        rw [if_neg hnf]
  refine ⟨hmain, ?_⟩
  intro herr
  rw [hmain]
  by_cases hall : ∀ e ∈ expectTypes, e ∈ classification
  · rw [if_pos hall]
    exact ⟨fun _ => hall, fun _ => rfl⟩
  · rw [if_neg hall]
    exact ⟨fun h => absurd h herr, fun h => absurd h hall⟩

/-- An instance of C9, amended: for a rule that expects `{A, B}`, with an expectation
error, and the classification `{A, B, C}`, `isValid` returns nil if and only if both
expected types occur, and they do; for `{A, C, D}` the rule gets its expectation error. -/
theorem Rule.isValid_more_witness :
    ((mkRule "r" 1 (some ["A", "B"]) (some "expected A, B")).isValid
        (some ["A", "B", "C"]) = none ↔ ∀ e ∈ ["A", "B"], e ∈ ["A", "B", "C"]) ∧
    (mkRule "r" 1 (some ["A", "B"]) (some "expected A, B")).isValid (some ["A", "B", "C"]) = none ∧
    (mkRule "r" 1 (some ["A", "B"]) (some "expected A, B")).isValid (some ["A", "C", "D"]) =
      some "expected A, B" :=
  ⟨(Rule.isValid_more (mkRule "r" 1 (some ["A", "B"]) (some "expected A, B"))
      ["A", "B"] ["A", "B", "C"] rfl (by decide) (by decide)).2 (by decide),
   by
    have h := (Rule.isValid_more (mkRule "r" 1 (some ["A", "B"]) (some "expected A, B"))
      ["A", "B"] ["A", "B", "C"] rfl (by decide) (by decide)).1
    rw [h]; decide,
   by
    have h := (Rule.isValid_more (mkRule "r" 1 (some ["A", "B"]) (some "expected A, B"))
      ["A", "B"] ["A", "C", "D"] rfl (by decide) (by decide)).1
    rw [h]; decide⟩

/-- C10 as stated fails: a rule that declares no expected types (`expectTypes` is nil)
and has an expectation error gets that error for the classification that consists of the
generic-map signature alone. -/
theorem Rule.isValid_genericMap_nil_expectTypes :
    (mkRule "r" 1 none (some "no expected types")).isValid (some [genericMapName]) ≠ none := by
  decide

/-- C10, amended: for every rule that declares expected types (`expectTypes` is not nil),
whatever they are, `isValid` returns nil when the classification is exactly the
one-element sequence with the generic-map signature. -/
theorem Rule.isValid_genericMap (r : Rule) (expectTypes : List String)
    (hexp : r.config.expectTypes = some expectTypes) :
    r.isValid (some [genericMapName]) = none := by
  simp [Rule.isValid, hexp]

/-- An instance of C10, amended: a rule that expects `{A, B}` is accepted for the
generic-map classification. -/
theorem Rule.isValid_genericMap_witness :
    (mkRule "r" 1 (some ["A", "B"]) (some "expected A, B")).isValid
      (some ["map[string]interface \x7b\x7d"]) = none :=
  Rule.isValid_genericMap (mkRule "r" 1 (some ["A", "B"]) (some "expected A, B")) ["A", "B"] rfl

/-! ## Evaluation loop -/

/-- One iteration of the loop of `Execute`, in terms of `ruleOutcome`: the iteration is
recorded, and the loop ends there exactly when the output parsed to `true` and the new
`successCount` equals the limit. -/
theorem evalRules_cons {σ : Type} (exec : Evaluator σ) (limit : Int)
    (types : Option (List String)) (tmplData : GoMap GoValue) (rule : Rule)
    (rest : List Rule) (run : Run σ) :
    evalRules exec limit types tmplData (rule :: rest) run =
      if (ruleOutcome exec types tmplData rule run.sink).2 = Outcome.resultTrue ∧
          run.successCount + 1 = limit then
        run.record rule (ruleOutcome exec types tmplData rule run.sink)
      else
        evalRules exec limit types tmplData rest
          (run.record rule (ruleOutcome exec types tmplData rule run.sink)) := by
  unfold ruleOutcome
  rw [evalRules]
  by_cases h1 : rule.config.noResultFunc = true
  · simp [h1, Run.record]
  · by_cases h2 : (rule.isValid types).isSome = true
    · simp [h1, h2, Run.record]
    · by_cases h3 : rule.config.templateErr.isSome = true
      · simp [h1, h2, h3, Run.record]
      · simp only [h1, h2, h3, if_false, Bool.false_eq_true]
        rcases hx : exec run.sink rule tmplData with ⟨sink, out⟩
        cases out with
        | none => simp [Run.record]
        | some buf =>
          simp only
          cases hp : strconv.ParseBool (strings.TrimSpace buf) with
          | none => simp [Run.record]
          | some b =>
            cases b with
            | false => simp [Run.record]
            | true =>
              by_cases hl : run.successCount + 1 = limit
              · simp [Run.record, hl]
              · simp [Run.record, hl]

theorem Run.record_trace {σ : Type} (run : Run σ) (rule : Rule) (o : σ × Outcome) :
    (run.record rule o).trace = run.trace ++ [(rule, o.2)] := rfl

theorem Run.record_successCount {σ : Type} (run : Run σ) (rule : Rule) (o : σ × Outcome) :
    (run.record rule o).successCount =
      if o.2 = Outcome.resultTrue then run.successCount + 1 else run.successCount := rfl

theorem countTrue_append (l₁ l₂ : List (Rule × Outcome)) :
    countTrue (l₁ ++ l₂) = countTrue l₁ + countTrue l₂ := by
  simp [countTrue]

theorem countTrue_singleton (rule : Rule) (o : Outcome) :
    countTrue [(rule, o)] = if o = Outcome.resultTrue then 1 else 0 := by
  by_cases h : o = Outcome.resultTrue <;> simp [countTrue, h]

theorem countTrue_take_le (l : List (Rule × Outcome)) (k : Nat) :
    countTrue (l.take k) ≤ countTrue l :=
  ((List.take_sublist k l).filter _).length_le

/-- The expression of a rule is executed exactly when none of the three checks skips the
rule. -/
theorem ruleOutcome_executed {σ : Type} (exec : Evaluator σ) (types : Option (List String))
    (tmplData : GoMap GoValue) (rule : Rule) (s : σ) :
    (ruleOutcome exec types tmplData rule s).2.executed = !(Rule.skipped types rule) := by
  unfold ruleOutcome Rule.skipped
  by_cases h1 : rule.config.noResultFunc = true
  · simp [h1, Outcome.executed]
  · by_cases h2 : (rule.isValid types).isSome = true
    · simp [h1, h2, Outcome.executed]
    · by_cases h3 : rule.config.templateErr.isSome = true
      · simp [h1, h2, h3, Outcome.executed]
      · simp only [h1, h2, h3, if_false, Bool.false_eq_true]
        rcases exec s rule tmplData with ⟨sink, out⟩
        cases out with
        | none => simp [Outcome.executed]
        | some buf =>
          simp only
          cases strconv.ParseBool (strings.TrimSpace buf) with
          | none => simp [Outcome.executed]
          | some b => cases b <;> simp [Outcome.executed]

/-- The loop visits the rules in the order of the slice, each at most once, and stops
after a prefix of it. -/
theorem evalRules_visited {σ : Type} (exec : Evaluator σ) (limit : Int)
    (types : Option (List String)) (tmplData : GoMap GoValue) :
    ∀ (rules : List Rule) (run : Run σ),
      ∃ k, (evalRules exec limit types tmplData rules run).visitedRules =
        run.visitedRules ++ rules.take k := by
  intro rules
  induction rules with
  | nil => intro run; exact ⟨0, by simp [evalRules]⟩
  | cons rule rest ih =>
    intro run
    rw [evalRules_cons]
    split
    · exact ⟨1, by simp [Run.visitedRules, Run.record_trace]⟩
    · obtain ⟨k, hk⟩ := ih (run.record rule (ruleOutcome exec types tmplData rule run.sink))
      exact ⟨k + 1, by rw [hk]; simp [Run.visitedRules, Run.record_trace]⟩

/-- Every recorded iteration executed the expression of its rule exactly when the rule
passed the three checks. -/
theorem evalRules_outcomes {σ : Type} (exec : Evaluator σ) (limit : Int)
    (types : Option (List String)) (tmplData : GoMap GoValue) :
    ∀ (rules : List Rule) (run : Run σ),
      (∀ e ∈ run.trace, e.2.executed = !(Rule.skipped types e.1)) →
      ∀ e ∈ (evalRules exec limit types tmplData rules run).trace,
        e.2.executed = !(Rule.skipped types e.1) := by
  intro rules
  induction rules with
  | nil => intro run h; simpa [evalRules] using h
  | cons rule rest ih =>
    intro run h
    have hrec : ∀ e ∈ (run.record rule (ruleOutcome exec types tmplData rule run.sink)).trace,
        e.2.executed = !(Rule.skipped types e.1) := by
      intro e he
      rw [Run.record_trace, List.mem_append, List.mem_singleton] at he
      rcases he with he | he
      · exact h e he
      · subst he
        exact ruleOutcome_executed exec types tmplData rule run.sink
    rw [evalRules_cons]
    split
    · exact hrec
    · exact ih _ hrec

/-- The executed rules are the visited rules that pass the three checks. -/
theorem executedRules_eq_filter {σ : Type} (types : Option (List String)) (run : Run σ)
    (h : ∀ e ∈ run.trace, e.2.executed = !(Rule.skipped types e.1)) :
    run.executedRules = run.visitedRules.filter (fun r => !(Rule.skipped types r)) := by
  unfold Run.executedRules Run.visitedRules
  generalize run.trace = l at h
  induction l with
  | nil => rfl
  | cons e l ih =>
    have he := h e (List.mem_cons_self e l)
    have hl := ih (fun e' he' => h e' (List.mem_cons_of_mem e he'))
    by_cases hx : e.2.executed = true
    · have hs : (!(Rule.skipped types e.1)) = true := by rw [← he]; exact hx
      simp only [List.filter_cons, hx, if_true, List.map_cons, hs, hl]
    · have hs : ¬ (!(Rule.skipped types e.1)) = true := by rw [← he]; exact hx
      simp only [List.filter_cons, hx, List.map_cons, hs]
      simpa using hl

/-- With a limit of at least one more than the successes counted so far, the loop keeps
`successCount` equal to the number of outputs that parsed to `true`, never lets it pass
the limit, and visits nothing after the iteration in which the limit is reached: every
proper prefix of the record holds fewer successes than the limit. -/
theorem evalRules_limit {σ : Type} (exec : Evaluator σ) (limit : Int)
    (types : Option (List String)) (tmplData : GoMap GoValue) :
    ∀ (rules : List Rule) (run : Run σ),
      run.successCount = countTrue run.trace → (countTrue run.trace : Int) < limit →
      (evalRules exec limit types tmplData rules run).successCount =
          countTrue (evalRules exec limit types tmplData rules run).trace ∧
      (evalRules exec limit types tmplData rules run).successCount ≤ limit ∧
      ∀ k, k < (evalRules exec limit types tmplData rules run).trace.length →
        (countTrue ((evalRules exec limit types tmplData rules run).trace.take k) : Int)
          < limit := by
  intro rules
  induction rules with
  | nil =>
    intro run hc hl
    refine ⟨by simpa [evalRules] using hc, by simp only [evalRules]; omega, ?_⟩
    intro k _
    have := countTrue_take_le run.trace k
    simp only [evalRules]
    omega
  | cons rule rest ih =>
    intro run hc hl
    have hcount : (run.record rule (ruleOutcome exec types tmplData rule run.sink)).successCount
        = countTrue (run.record rule (ruleOutcome exec types tmplData rule run.sink)).trace := by
      rw [Run.record_trace, Run.record_successCount, countTrue_append, countTrue_singleton, hc]
      split <;> simp
    rw [evalRules_cons]
    split
    · rename_i hstop
      refine ⟨hcount, ?_, ?_⟩
      · rw [Run.record_successCount, if_pos hstop.1, hstop.2]
      · intro k hk
        rw [Run.record_trace] at hk ⊢
        have hk' : k ≤ run.trace.length := by
          simp only [List.length_append, List.length_singleton] at hk
          omega
        rw [List.take_append_of_le_length hk']
        have := countTrue_take_le run.trace k
        omega
    · rename_i hgo
      refine ih _ hcount ?_
      rw [← hcount, Run.record_successCount]
      split
      · rename_i htrue
        have : ¬ run.successCount + 1 = limit := fun h => hgo ⟨htrue, h⟩
        omega
      · omega

/-- With a limit that is not above the successes counted so far (a limit of 0 at the
start of the loop, for one), the loop visits every rule. -/
theorem evalRules_no_limit {σ : Type} (exec : Evaluator σ) (limit : Int)
    (types : Option (List String)) (tmplData : GoMap GoValue) :
    ∀ (rules : List Rule) (run : Run σ), limit ≤ run.successCount →
      (evalRules exec limit types tmplData rules run).visitedRules =
        run.visitedRules ++ rules := by
  intro rules
  induction rules with
  | nil => intro run _; simp [evalRules]
  | cons rule rest ih =>
    intro run h
    rw [evalRules_cons]
    have hstop : ¬ ((ruleOutcome exec types tmplData rule run.sink).2 = Outcome.resultTrue ∧
        run.successCount + 1 = limit) := by
      rintro ⟨_, h2⟩
      omega
    rw [if_neg hstop, ih]
    · simp [Run.visitedRules, Run.record_trace]
    · rw [Run.record_successCount]
      split <;> omega

/-- When the output of every rule parses to `true`, the loop executes the expressions of
as many leading rules as the limit still allows, and no other. -/
theorem evalRules_all_true {σ : Type} (exec : Evaluator σ) (limit : Int)
    (types : Option (List String)) (tmplData : GoMap GoValue) :
    ∀ (rules : List Rule) (run : Run σ),
      (∀ r ∈ rules, ∀ s, (ruleOutcome exec types tmplData r s).2 = Outcome.resultTrue) →
      run.successCount < limit →
      (evalRules exec limit types tmplData rules run).executedRules =
        run.executedRules ++ rules.take (limit - run.successCount).toNat := by
  intro rules
  induction rules with
  | nil => intro run _ _; simp [evalRules]
  | cons rule rest ih =>
    intro run hall hlt
    have ho := hall rule (List.mem_cons_self rule rest) run.sink
    have hexec : (run.record rule (ruleOutcome exec types tmplData rule run.sink)).executedRules
        = run.executedRules ++ [rule] := by
      simp [Run.executedRules, Run.record_trace, ho, Outcome.executed]
    obtain ⟨n, hn⟩ : ∃ n, (limit - run.successCount).toNat = n + 1 :=
      ⟨(limit - run.successCount).toNat - 1, by omega⟩
    rw [evalRules_cons]
    split
    · rename_i hstop
      have h1 : n = 0 := by omega
      rw [hexec, hn, h1]
      simp
    · rename_i hgo
      have hne : ¬ run.successCount + 1 = limit := fun h => hgo ⟨ho, h⟩
      have hsc : (run.record rule (ruleOutcome exec types tmplData rule run.sink)).successCount
          = run.successCount + 1 := by
        rw [Run.record_successCount, if_pos ho]
      rw [ih _ (fun r hr => hall r (List.mem_cons_of_mem rule hr)) (by rw [hsc]; omega),
        hexec, hsc, hn]
      have h2 : (limit - (run.successCount + 1)).toNat = n := by omega
      rw [h2]
      simp

/-- When the workflow matches, classification and flattening do not panic and the type
filter accepts, `Execute` is the loop over the rules of the ruleset, run on the empty
classification `types[:0]`. -/
theorem TextTemplateRuleset.Execute_eq_evalRules {σ : Type} (exec : Evaluator σ)
    (t : TextTemplateRuleset) (vals : GoValue) (s : σ) (types : List String)
    (hw : t.config.workflowMatch = true) (hty : getTypes vals = some types)
    (hf : t.isValidForTypes (sort.Strings types) = true)
    (hd : (t.getTemplateData mapBufGet vals).isSome = true) :
    ∃ tmplData, t.getTemplateData mapBufGet vals = some tmplData ∧
      t.Execute exec vals s =
        some (evalRules exec t.limit (some []) tmplData t.Rules (Run.init s)) := by
  obtain ⟨tmplData, htd⟩ := Option.isSome_iff_exists.mp hd
  refine ⟨tmplData, htd, ?_⟩
  simp [TextTemplateRuleset.Execute, hw, hty, hf, htd]

/-! ## Evaluation engine -/

/-- C4 (the code departs from the claim): the input `[]interface{}{7}` has the sorted
classification `["int"]`, for which `isValid` accepts the rule that expects `{int}`; yet
`Execute` skips that rule at the validation step. `Execute` truncates `types` to length 0
(line 283) before the loop, so the validator is asked about the empty classification,
for which it returns the expectation error of the rule. -/
theorem TextTemplateRuleset.Execute_validates_truncated_types :
    (getTypes (GoValue.slice [goInt 7])).map sort.Strings = some ["int"] ∧
    (mkRule "r" 1 (some ["int"]) (some "expected int")).isValid (some ["int"]) = none ∧
    (mkRule "r" 1 (some ["int"]) (some "expected int")).isValid (some []) =
      some "expected int" ∧
    ((mkRuleset false ["int"] [mkRule "r" 1 (some ["int"]) (some "expected int")] 1).Execute
        countingTrue (GoValue.slice [goInt 7]) 0).map (fun run => run.trace) =
      some [(mkRule "r" 1 (some ["int"]) (some "expected int"), Outcome.skipInvalid)] := by
  decide

/-- C5: with a success limit `L ≥ 1`, when `Execute` reaches its loop, `successCount` is
the number of rules whose output parsed to `true` and never passes `L`; the rules are
visited in the order of `Rules`, up to some position; the iteration that brings the count
to `L` is the last one, so no rule after it is visited, let alone executed; and when the
output of every rule parses to `true`, the expressions executed are exactly those of the
first `L` rules. -/
theorem TextTemplateRuleset.Execute_early_termination {σ : Type} (exec : Evaluator σ)
    (t : TextTemplateRuleset) (vals : GoValue) (s : σ) (types : List String)
    (hlimit : 1 ≤ t.limit)
    (hw : t.config.workflowMatch = true) (hty : getTypes vals = some types)
    (hf : t.isValidForTypes (sort.Strings types) = true)
    (hd : (t.getTemplateData mapBufGet vals).isSome = true) :
    ∃ run, t.Execute exec vals s = some run ∧
      run.successCount = countTrue run.trace ∧
      run.successCount ≤ t.limit ∧
      run.visitedRules <+: t.Rules ∧
      (∀ pre e post, run.trace = pre ++ e :: post → e.2 = Outcome.resultTrue →
        (countTrue pre : Int) + 1 = t.limit → post = []) ∧
      ((∀ r ∈ t.Rules, ∀ d s', (ruleOutcome exec (some []) d r s').2 = Outcome.resultTrue) →
        run.executedRules = t.Rules.take t.limit.toNat) := by
  obtain ⟨tmplData, _, hrun⟩ :=
    TextTemplateRuleset.Execute_eq_evalRules exec t vals s types hw hty hf hd
  refine ⟨_, hrun, ?_⟩
  obtain ⟨h1, h2, h3⟩ := evalRules_limit exec t.limit (some []) tmplData t.Rules (Run.init s)
    (by simp [Run.init, countTrue]) (by simp only [Run.init, countTrue]; simp; omega)
  refine ⟨h1, h2, ?_, ?_, ?_⟩
  · obtain ⟨k, hk⟩ := evalRules_visited exec t.limit (some []) tmplData t.Rules (Run.init s)
    rw [hk]
    simpa [Run.visitedRules, Run.init] using List.take_prefix k t.Rules
  · intro pre e post htr he hc
    cases post with
    | nil => rfl
    | cons p ps =>
      exfalso
      have hk := h3 (pre.length + 1) (by rw [htr]; simp)
      rw [htr] at hk
      have ht : (pre ++ e :: p :: ps).take (pre.length + 1) = pre ++ [e] := by
        rw [List.take_append]
        simp
      rw [ht, countTrue_append, countTrue_singleton, if_pos he] at hk
      push_cast at hk
      omega
  · intro hall
    have := evalRules_all_true exec t.limit (some []) tmplData t.Rules (Run.init s)
      (fun r hr s' => hall r hr tmplData s') (by simp only [Run.init]; omega)
    rw [this]
    simp [Run.executedRules, Run.init]

/-- An instance of C5: with `limit = 2` and three rules whose output is always `true`,
`Execute` executes the expressions of the first two rules and not that of the third; the
evaluator has then run twice. -/
theorem TextTemplateRuleset.Execute_early_termination_witness :
    (∃ run,
      (mkRuleset false ["int"]
        [mkRule "r1" 1 (some ["int"]) none, mkRule "r2" 2 (some ["int"]) none,
         mkRule "r3" 3 (some ["int"]) none] 2).Execute countingTrue
        (GoValue.slice [goInt 7]) 0 = some run ∧
      run.executedRules =
        [mkRule "r1" 1 (some ["int"]) none, mkRule "r2" 2 (some ["int"]) none]) ∧
    ((mkRuleset false ["int"]
        [mkRule "r1" 1 (some ["int"]) none, mkRule "r2" 2 (some ["int"]) none,
         mkRule "r3" 3 (some ["int"]) none] 2).Execute countingTrue
        (GoValue.slice [goInt 7]) 0).map (fun run => run.sink) = some 2 := by
  refine ⟨?_, by decide⟩
  obtain ⟨run, hrun, _, _, _, _, hall⟩ :=
    TextTemplateRuleset.Execute_early_termination countingTrue
      (mkRuleset false ["int"]
        [mkRule "r1" 1 (some ["int"]) none, mkRule "r2" 2 (some ["int"]) none,
         mkRule "r3" 3 (some ["int"]) none] 2)
      (GoValue.slice [goInt 7]) 0 ["int"] (by decide) (by decide) (by decide) (by decide)
      (by decide)
  refine ⟨run, hrun, ?_⟩
  rw [hall]
  · decide
  · intro r hr d s'
    have hp : strconv.ParseBool (strings.TrimSpace " true\n") = some true := by decide
    simp only [mkRuleset, List.mem_cons, List.mem_singleton, List.not_mem_nil, or_false] at hr
    rcases hr with h | h | h <;> subst h <;>
      simp [ruleOutcome, mkRule, Rule.isValid, countingTrue, hp]

/-- C6: with `limit = 0`, when `Execute` reaches its loop (the workflow matches, the type
filter accepts), it visits every rule of the ruleset and executes the expression of
every rule that the `noResultFunc`, validator and compile-error checks do not skip,
whatever the outputs are. -/
theorem TextTemplateRuleset.Execute_no_limit {σ : Type} (exec : Evaluator σ)
    (t : TextTemplateRuleset) (vals : GoValue) (s : σ) (types : List String)
    (hlimit : t.limit = 0)
    (hw : t.config.workflowMatch = true) (hty : getTypes vals = some types)
    (hf : t.isValidForTypes (sort.Strings types) = true)
    (hd : (t.getTemplateData mapBufGet vals).isSome = true) :
    ∃ run, t.Execute exec vals s = some run ∧
      run.visitedRules = t.Rules ∧
      run.executedRules = t.Rules.filter (fun r => !(Rule.skipped (some []) r)) := by
  obtain ⟨tmplData, _, hrun⟩ :=
    TextTemplateRuleset.Execute_eq_evalRules exec t vals s types hw hty hf hd
  refine ⟨_, hrun, ?_⟩
  have hv := evalRules_no_limit exec t.limit (some []) tmplData t.Rules (Run.init s)
    (by simp only [Run.init]; omega)
  have hv' : (evalRules exec t.limit (some []) tmplData t.Rules (Run.init s)).visitedRules
      = t.Rules := by
    rw [hv]
    simp [Run.visitedRules, Run.init]
  refine ⟨hv', ?_⟩
  rw [executedRules_eq_filter (some []) _
    (evalRules_outcomes exec t.limit (some []) tmplData t.Rules (Run.init s)
      (by simp [Run.init])), hv']

/-- An instance of C6: with `limit = 0` and three rules whose output is always `true`,
`Execute` executes all three expressions. -/
theorem TextTemplateRuleset.Execute_no_limit_witness :
    ∃ run,
      (mkRuleset false ["int"]
        [mkRule "r1" 1 (some ["int"]) none, mkRule "r2" 2 (some ["int"]) none,
         mkRule "r3" 3 (some ["int"]) none] 0).Execute countingTrue
        (GoValue.slice [goInt 7]) 0 = some run ∧
      run.executedRules =
        [mkRule "r1" 1 (some ["int"]) none, mkRule "r2" 2 (some ["int"]) none,
         mkRule "r3" 3 (some ["int"]) none] := by
  obtain ⟨run, hrun, _, hexec⟩ :=
    TextTemplateRuleset.Execute_no_limit countingTrue
      (mkRuleset false ["int"]
        [mkRule "r1" 1 (some ["int"]) none, mkRule "r2" 2 (some ["int"]) none,
         mkRule "r3" 3 (some ["int"]) none] 0)
      (GoValue.slice [goInt 7]) 0 ["int"] (by decide) (by decide) (by decide) (by decide)
      (by decide)
  refine ⟨run, hrun, ?_⟩
  rw [hexec]
  decide

/-- Every return of `isValid` is nil or the expectation error of the rule. -/
theorem Rule.isValid_eq_none_or (r : Rule) (filterTypesArr : Option (List String)) :
    r.isValid filterTypesArr = none ∨ r.isValid filterTypesArr = r.config.expectTypesErr := by
  unfold Rule.isValid
  split
  · exact Or.inr rfl
  · exact Or.inr rfl
  · split_ifs <;> simp

/-- C11 as stated fails: a rule that declares no expected types and has no expectation
error is reported valid (`isValid` returns nil), here for the classification `{int}`; and
a rule whose `expectTypes` is the empty, non-nil slice is reported valid for the empty,
non-nil classification although it has an expectation error. -/
theorem Rule.isValid_no_expectation_accepted :
    (mkRule "r" 1 none none).isValid (some ["int"]) = none ∧
    (mkRule "r" 1 (some []) (some "no expected types")).isValid (some []) = none := by
  decide

/-- C11, amended: for every rule whose `expectTypes` is nil, for every rule given a nil
classification, and for every rule that declares at least one expected type given an
empty classification, `isValid` returns the expectation error of the rule; so the rule
is reported invalid exactly when that error is not nil. -/
theorem Rule.isValid_no_expectation (r : Rule) (classification : Option (List String))
    (h : r.config.expectTypes = none ∨ classification = none ∨
      (classification = some [] ∧ r.config.expectTypes ≠ some [])) :
    r.isValid classification = r.config.expectTypesErr ∧
    (r.isValid classification ≠ none ↔ r.config.expectTypesErr ≠ none) := by
  have hmain : r.isValid classification = r.config.expectTypesErr := by
    rcases h with h | h | ⟨h, hne⟩
    · simp [Rule.isValid, h]
    · subst h
      unfold Rule.isValid
      split <;> simp_all
    · subst h
      cases he : r.config.expectTypes with
      | none => simp [Rule.isValid, he]
      | some expectTypes =>
        have hpos : 0 < expectTypes.length := by
          cases expectTypes with
          | nil => exact absurd he hne
          | cons e es => simp
        simp [Rule.isValid, he, hpos]
  exact ⟨hmain, by rw [hmain]⟩

/-- Instances of C11, amended: a rule without expected types, and a rule that expects
`{A}` given the empty classification, get their expectation error. -/
theorem Rule.isValid_no_expectation_witness :
    (mkRule "r" 1 none (some "no expected types")).isValid (some ["int"]) =
      some "no expected types" ∧
    (mkRule "r" 1 (some ["A"]) (some "expected A")).isValid (some []) = some "expected A" :=
  ⟨(Rule.isValid_no_expectation (mkRule "r" 1 none (some "no expected types"))
      (some ["int"]) (Or.inl rfl)).1,
   (Rule.isValid_no_expectation (mkRule "r" 1 (some ["A"]) (some "expected A"))
      (some []) (Or.inr (Or.inr ⟨rfl, by decide⟩))).1⟩

/-- C20: a rule whose `expectTypesErr` is nil is reported valid (`isValid` returns nil)
for every classification, nil or not, of any length and contents: every rejecting return
of `isValid` returns `expectTypesErr`. -/
theorem Rule.isValid_nil_error (r : Rule) (classification : Option (List String))
    (h : r.config.expectTypesErr = none) : r.isValid classification = none := by
  rcases Rule.isValid_eq_none_or r classification with h' | h'
  · exact h'
  · rw [h', h]

/-- An instance of C20: a rule that expects `{A}` and has no expectation error is
reported valid for the classification `{B, C, D}`. -/
theorem Rule.isValid_nil_error_witness :
    (mkRule "r" 1 (some ["A"]) none).isValid (some ["B", "C", "D"]) = none :=
  Rule.isValid_nil_error (mkRule "r" 1 (some ["A"]) none) (some ["B", "C", "D"]) rfl

/-! ## Type filter, continued -/

/-- C19: `isValidForTypes` gives the same result for any two classifications of the same
length: it reads the length of its argument only, and searches the declared filter types
for their own elements. -/
theorem TextTemplateRuleset.isValidForTypes_length_only (t : TextTemplateRuleset)
    (c₁ c₂ : List String) (h : c₁.length = c₂.length) :
    t.isValidForTypes c₁ = t.isValidForTypes c₂ := by
  simp only [TextTemplateRuleset.isValidForTypes, h]

/-- An instance of C19: the ruleset that declares `{A}` treats the classifications `{A}`
and `{B}` alike. -/
theorem TextTemplateRuleset.isValidForTypes_length_only_witness :
    (mkRuleset false ["A"] [] 0).isValidForTypes ["A"] =
      (mkRuleset false ["A"] [] 0).isValidForTypes ["B"] :=
  TextTemplateRuleset.isValidForTypes_length_only (mkRuleset false ["A"] [] 0) ["A"] ["B"] rfl

/-! ## Type classifier -/

/-- The classification of a list whose elements are not nil and have dynamic types: the
type signatures of the elements, in order. -/
theorem getTypesList_eq :
    ∀ (xs : List GoValue),
      (∀ v ∈ xs, ∃ ty, reflect.TypeOf v = some ty ∧ ty.Dynamic) →
      ∃ types, getTypesList xs = some types ∧
        types.map some = xs.map (fun v => (reflect.TypeOf v).bind typeSignature) := by
  intro xs
  induction xs with
  | nil => intro _; exact ⟨[], rfl, rfl⟩
  | cons v vs ih =>
    intro h
    obtain ⟨ty, hty, _, hif, hptr⟩ := h v (List.mem_cons_self v vs)
    obtain ⟨types, hts, hmap⟩ := ih (fun w hw => h w (List.mem_cons_of_mem v hw))
    by_cases hk : ty.kind = Kind.Ptr
    · obtain ⟨e, he⟩ := Option.isSome_iff_exists.mp (hptr hk)
      refine ⟨e :: types, ?_, ?_⟩
      · simp [getTypesList, elemTypeName, reflect.kindOf, hty, hk, he, hts]
      · simp [hty, typeSignature, hk, he, hmap]
    · refine ⟨ty.name :: types, ?_, ?_⟩
      · simp [getTypesList, elemTypeName, reflect.kindOf, hty, hk, hif, hts]
      · simp [hty, typeSignature, hk, hmap]

/-- C12: for a list input whose elements are not nil (each has a dynamic type), `getTypes`
returns a sequence of the length of the input whose `i`-th entry is the type signature of
the `i`-th element: the signature of the referenced type for a pointer, the signature of
the element's own type otherwise. -/
theorem getTypes_list (xs : List GoValue)
    (h : ∀ v ∈ xs, ∃ ty, reflect.TypeOf v = some ty ∧ ty.Dynamic) :
    ∃ types, getTypes (GoValue.slice xs) = some types ∧
      types.length = xs.length ∧
      ∀ i (hi : i < xs.length),
        types[i]? = (reflect.TypeOf (xs.get ⟨i, hi⟩)).bind typeSignature := by
  obtain ⟨types, hts, hmap⟩ := getTypesList_eq xs h
  have hlen : types.length = xs.length := by
    have := congrArg List.length hmap
    simpa using this
  refine ⟨types, by simpa [getTypes] using hts, hlen, ?_⟩
  intro i hi
  have hi' : i < types.length := hlen ▸ hi
  have h1 := congrArg (fun l => l[i]?) hmap
  simp only [List.getElem?_map, List.getElem?_eq_getElem hi, List.getElem?_eq_getElem hi',
    Option.map_some'] at h1
  rw [List.getElem?_eq_getElem hi', List.get_eq_getElem]
  exact (Option.some.inj h1) ▸ rfl

/-- An instance of C12: the list of the int `7`, a pointer to an `a.Person` and a generic
map is classified as `int`, `a.Person`, `map[string]interface {}`. -/
theorem getTypes_list_witness :
    ∃ types, getTypes (GoValue.slice [goInt 7, goPtr "a.Person" 1, GoValue.dict GoMap.empty])
        = some types ∧
      types.length = 3 ∧
      types = ["int", "a.Person", "map[string]interface \x7b\x7d"] := by
  obtain ⟨types, hts, hlen, _⟩ :=
    getTypes_list [goInt 7, goPtr "a.Person" 1, GoValue.dict GoMap.empty] (by
      intro v hv
      simp only [List.mem_cons, List.mem_singleton, List.not_mem_nil, or_false] at hv
      rcases hv with h | h | h <;> subst h
      · exact ⟨_, rfl, by decide⟩
      · exact ⟨_, rfl, by decide⟩
      · exact ⟨_, rfl, by decide⟩)
  refine ⟨types, hts, hlen, ?_⟩
  have h2 : getTypes (GoValue.slice [goInt 7, goPtr "a.Person" 1, GoValue.dict GoMap.empty])
      = some ["int", "a.Person", "map[string]interface \x7b\x7d"] := by decide
  rw [h2] at hts
  exact (Option.some.inj hts).symm

/-- C13 (the code departs from the claim): for the single value `7`, `getTypes` panics,
while the one-element list `[7]` is classified as `int`; for a single generic map it
returns `interface {}`, the signature of the element type of the map, while the
one-element list is classified as `map[string]interface {}`. The default branch calls
`Elem()` without the test on the kind that the list branch makes. -/
theorem getTypes_single_value :
    getTypes (goInt 7) = none ∧
    getTypes (GoValue.slice [goInt 7]) = some ["int"] ∧
    getTypes (GoValue.dict GoMap.empty) = some ["interface \x7b\x7d"] ∧
    getTypes (GoValue.slice [GoValue.dict GoMap.empty]) =
      some ["map[string]interface \x7b\x7d"] ∧
    getTypes (goPtr "a.Person" 1) = getTypes (GoValue.slice [goPtr "a.Person" 1]) := by
  decide

/-! ## Evaluation loop, continued -/

/-- The loop keeps `successCount` equal to the number of recorded outputs that parsed to
`true`, whatever the limit is. -/
theorem evalRules_count {σ : Type} (exec : Evaluator σ) (limit : Int)
    (types : Option (List String)) (tmplData : GoMap GoValue) :
    ∀ (rules : List Rule) (run : Run σ),
      run.successCount = countTrue run.trace →
      (evalRules exec limit types tmplData rules run).successCount =
        countTrue (evalRules exec limit types tmplData rules run).trace := by
  intro rules
  induction rules with
  | nil => intro run hc; simpa [evalRules] using hc
  | cons rule rest ih =>
    intro run hc
    have hcount : (run.record rule (ruleOutcome exec types tmplData rule run.sink)).successCount
        = countTrue (run.record rule (ruleOutcome exec types tmplData rule run.sink)).trace := by
      rw [Run.record_trace, Run.record_successCount, countTrue_append, countTrue_singleton, hc]
      split <;> simp
    rw [evalRules_cons]
    split
    · exact hcount
    · exact ih _ hcount

/-- The loop either visits every remaining rule or ends in an iteration whose output
parsed to `true` and brought `successCount` to the limit. -/
theorem evalRules_stop {σ : Type} (exec : Evaluator σ) (limit : Int)
    (types : Option (List String)) (tmplData : GoMap GoValue) :
    ∀ (rules : List Rule) (run : Run σ),
      (evalRules exec limit types tmplData rules run).trace.length =
          run.trace.length + rules.length ∨
      ((evalRules exec limit types tmplData rules run).successCount = limit ∧
        ∃ pre r, (evalRules exec limit types tmplData rules run).trace =
          pre ++ [(r, Outcome.resultTrue)]) := by
  intro rules
  induction rules with
  | nil => intro run; left; simp [evalRules]
  | cons rule rest ih =>
    intro run
    rw [evalRules_cons]
    split
    · rename_i hstop
      right
      refine ⟨by rw [Run.record_successCount, if_pos hstop.1, hstop.2], run.trace, rule, ?_⟩
      rw [Run.record_trace, hstop.1]
    · rcases ih (run.record rule (ruleOutcome exec types tmplData rule run.sink)) with h | h
      · left
        have hr : (run.record rule (ruleOutcome exec types tmplData rule run.sink)).trace.length
            = run.trace.length + 1 := by
          simp [Run.record_trace]
        rw [h, hr, List.length_cons]
        omega
      · exact Or.inr h

/-- C18: a rule whose iteration does not end with an output that parsed to `true` (it is
skipped for `noResultFunc`, by the validator or for its compile error, its execution
fails, or its output is not a boolean or is `false`) leaves `successCount` as it is and
the loop goes on with the next rule; so when `Execute` reaches its loop, `successCount`
counts the outputs that parsed to `true` only, a rule that failed is followed by the next
rule of the ruleset, and the loop stops before the last rule only in an iteration that
brought `successCount` to the limit. -/
theorem TextTemplateRuleset.Execute_skip_and_continue {σ : Type} (exec : Evaluator σ)
    (t : TextTemplateRuleset) (vals : GoValue) (s : σ) (types : List String)
    (hw : t.config.workflowMatch = true) (hty : getTypes vals = some types)
    (hf : t.isValidForTypes (sort.Strings types) = true)
    (hd : (t.getTemplateData mapBufGet vals).isSome = true) :
    (∀ (d : GoMap GoValue) (rule : Rule) (rest : List Rule) (run : Run σ),
      (ruleOutcome exec (some []) d rule run.sink).2 ≠ Outcome.resultTrue →
      evalRules exec t.limit (some []) d (rule :: rest) run =
          evalRules exec t.limit (some []) d rest
            (run.record rule (ruleOutcome exec (some []) d rule run.sink)) ∧
        (run.record rule (ruleOutcome exec (some []) d rule run.sink)).successCount =
          run.successCount) ∧
    ∃ run, t.Execute exec vals s = some run ∧
      run.successCount = countTrue run.trace ∧
      run.visitedRules <+: t.Rules ∧
      (run.trace.length < t.Rules.length →
        run.successCount = t.limit ∧ ∃ pre r, run.trace = pre ++ [(r, Outcome.resultTrue)]) ∧
      (∀ pre e post, run.trace = pre ++ e :: post → e.2 ≠ Outcome.resultTrue →
        pre.length + 1 < t.Rules.length → post ≠ []) := by
  constructor
  · intro d rule rest run ho
    rw [evalRules_cons, if_neg (fun h => ho h.1), Run.record_successCount, if_neg ho]
    exact ⟨rfl, rfl⟩
  obtain ⟨tmplData, _, hrun⟩ :=
    TextTemplateRuleset.Execute_eq_evalRules exec t vals s types hw hty hf hd
  refine ⟨_, hrun, ?_⟩
  have hcount := evalRules_count exec t.limit (some []) tmplData t.Rules (Run.init s)
    (by simp [Run.init, countTrue])
  have hstop : (evalRules exec t.limit (some []) tmplData t.Rules (Run.init s)).trace.length
        < t.Rules.length →
      (evalRules exec t.limit (some []) tmplData t.Rules (Run.init s)).successCount = t.limit ∧
        ∃ pre r, (evalRules exec t.limit (some []) tmplData t.Rules (Run.init s)).trace =
          pre ++ [(r, Outcome.resultTrue)] := by
    intro hlt
    rcases evalRules_stop exec t.limit (some []) tmplData t.Rules (Run.init s) with h | h
    · have h0 : (Run.init s).trace.length = 0 := rfl
      omega
    · exact h
  refine ⟨hcount, ?_, hstop, ?_⟩
  · obtain ⟨k, hk⟩ := evalRules_visited exec t.limit (some []) tmplData t.Rules (Run.init s)
    rw [hk]
    simpa [Run.visitedRules, Run.init] using List.take_prefix k t.Rules
  · intro pre e post htr he hlen hpost
    subst hpost
    obtain ⟨_, pre', r, hlast⟩ := hstop (by rw [htr]; simpa using hlen)
    rw [htr] at hlast
    have := List.append_inj_right' hlast (by simp)
    simp only [List.cons.injEq, and_true] at this
    exact he (by rw [this])

/-- An instance of C18: seven rules that end in the seven ways an iteration can end, the
last with `true`; every one of them is visited, and `successCount` is 1 at the end. -/
theorem TextTemplateRuleset.Execute_skip_and_continue_witness :
    ∃ run,
      (mkRuleset false ["int"]
        [{ exprRule "a" "true" with
            config := { (exprRule "a" "true").config with noResultFunc := true } },
         mkRule "b" 0 (some ["int"]) (some "expected int"),
         { exprRule "c" "true" with
            config := { (exprRule "c" "true").config with templateErr := some "bad" } },
         exprRule "d" "", exprRule "e" "maybe", exprRule "f" "false", exprRule "g" "true",
         exprRule "h" "true"] 1).Execute echoExpr (GoValue.slice [goInt 7]) 0 = some run ∧
      run.trace.map Prod.snd =
        [Outcome.skipNoResultFunc, Outcome.skipInvalid, Outcome.skipTemplateErr,
         Outcome.execError, Outcome.parseError, Outcome.resultFalse, Outcome.resultTrue] ∧
      run.successCount = 1 := by
  obtain ⟨run, hrun, _⟩ :=
    (TextTemplateRuleset.Execute_skip_and_continue echoExpr
      (mkRuleset false ["int"]
        [{ exprRule "a" "true" with
            config := { (exprRule "a" "true").config with noResultFunc := true } },
         mkRule "b" 0 (some ["int"]) (some "expected int"),
         { exprRule "c" "true" with
            config := { (exprRule "c" "true").config with templateErr := some "bad" } },
         exprRule "d" "", exprRule "e" "maybe", exprRule "f" "false", exprRule "g" "true",
         exprRule "h" "true"] 1)
      (GoValue.slice [goInt 7]) 0 ["int"] (by decide) (by decide) (by decide) (by decide)).2
  refine ⟨run, hrun, ?_⟩
  have h2 : ((mkRuleset false ["int"]
        [{ exprRule "a" "true" with
            config := { (exprRule "a" "true").config with noResultFunc := true } },
         mkRule "b" 0 (some ["int"]) (some "expected int"),
         { exprRule "c" "true" with
            config := { (exprRule "c" "true").config with templateErr := some "bad" } },
         exprRule "d" "", exprRule "e" "maybe", exprRule "f" "false", exprRule "g" "true",
         exprRule "h" "true"] 1).Execute echoExpr (GoValue.slice [goInt 7]) 0).map
        (fun run => (run.trace.map Prod.snd, run.successCount)) =
      some ([Outcome.skipNoResultFunc, Outcome.skipInvalid, Outcome.skipTemplateErr,
         Outcome.execError, Outcome.parseError, Outcome.resultFalse, Outcome.resultTrue], 1) := by
    decide
  rw [hrun] at h2
  simp only [Option.map_some', Option.some.injEq, Prod.mk.injEq] at h2
  exact h2

/-! ## Context flattener -/

/-- C16: on every input on which `getTemplateData(tmplData, vals)` returns, `tmplData`
afterwards agrees with `tmplData` before at every key other than `DataKey`, and holds
under `DataKey` a map that binds `ResultKey` to the result sink of the ruleset. -/
theorem TextTemplateRuleset.getTemplateData_frame (t : TextTemplateRuleset)
    (tmplData : GoMap GoValue) (vals : GoValue)
    (h : (t.getTemplateData tmplData vals).isSome = true) :
    ∃ tmplData' m, t.getTemplateData tmplData vals = some tmplData' ∧
      (∀ k, k ≠ t.DataKey → tmplData' k = tmplData k) ∧
      tmplData' t.DataKey = some (GoValue.dict m) ∧
      m t.ResultKey = some t.config.result := by
  unfold TextTemplateRuleset.getTemplateData at h ⊢
  cases hf : flattenVals vals with
  | none => simp [hf] at h
  | some p =>
    obtain ⟨valsData, valsNil, nestedMap⟩ := p
    cases valsNil with
    | true => simp [hf] at h
    | false =>
      refine ⟨tmplData.set t.DataKey (GoValue.dict
          (resolveVals (valsData.set t.ResultKey (Slot.val t.config.result)) nestedMap)),
        resolveVals (valsData.set t.ResultKey (Slot.val t.config.result)) nestedMap,
        rfl, ?_, ?_, ?_⟩
      · intro k hk
        simp [GoMap.set, hk]
      · simp [GoMap.set]
      · simp [resolveVals, GoMap.set]

/-- An instance of C16: flattening the list `[7]` into a map that holds an entry under
`"other"`. -/
theorem TextTemplateRuleset.getTemplateData_frame_witness :
    ∃ tmplData' m,
      (mkRuleset false ["int"] [] 0).getTemplateData
        ((mapBufGet : GoMap GoValue).set "other" (goInt 1)) (GoValue.slice [goInt 7])
        = some tmplData' ∧
      (∀ k, k ≠ (mkRuleset false ["int"] [] 0).DataKey →
        tmplData' k = ((mapBufGet : GoMap GoValue).set "other" (goInt 1)) k) ∧
      tmplData' (mkRuleset false ["int"] [] 0).DataKey = some (GoValue.dict m) ∧
      m (mkRuleset false ["int"] [] 0).ResultKey = some (mkRuleset false ["int"] [] 0).config.result :=
  TextTemplateRuleset.getTemplateData_frame (mkRuleset false ["int"] [] 0)
    ((mapBufGet : GoMap GoValue).set "other" (goInt 1)) (GoValue.slice [goInt 7]) (by decide)

/-! ## Decimal indices in keys -/

theorem digitChar_spec (k : Nat) (h : k < 10) :
    (Nat.digitChar k).isDigit = true ∧ (Nat.digitChar k).toNat - 48 = k := by
  interval_cases k <;> decide

theorem decimalValue_append_singleton (l : List Char) (c : Char) :
    decimalValue (l ++ [c]) = decimalValue l * 10 + (c.toNat - 48) := by
  simp [decimalValue, List.foldl_append]

/-- The digits that `Nat.toDigitsCore` puts in front of `ds`: a non-empty list of decimal
digits that denotes `n`. -/
theorem toDigitsCore_spec :
    ∀ (fuel n : Nat) (ds : List Char), n < fuel →
      ∃ D, Nat.toDigitsCore 10 fuel n ds = D ++ ds ∧ D ≠ [] ∧
        D.all Char.isDigit = true ∧ decimalValue D = n := by
  intro fuel
  induction fuel with
  | zero => intro n ds h; omega
  | succ f ih =>
    intro n ds h
    have hd := digitChar_spec (n % 10) (Nat.mod_lt n (by decide))
    unfold Nat.toDigitsCore
    by_cases h0 : n / 10 = 0
    · refine ⟨[Nat.digitChar (n % 10)], by simp [h0], by simp, by simp [hd.1], ?_⟩
      have hn : n % 10 = n := by omega
      have hv : decimalValue [Nat.digitChar (n % 10)] = (Nat.digitChar (n % 10)).toNat - 48 := by
        simp [decimalValue]
      rw [hv, hd.2, hn]
    · obtain ⟨D, hD, _, hall, hval⟩ := ih (n / 10) (Nat.digitChar (n % 10) :: ds) (by omega)
      refine ⟨D ++ [Nat.digitChar (n % 10)], by simp [h0, hD], by simp, ?_, ?_⟩
      · simp [List.all_append, hall, hd.1]
      · rw [decimalValue_append_singleton, hval, hd.2]
        omega

/-- The decimal form of `strconv.Itoa`: a non-empty list of decimal digits that denotes
the number. -/
theorem strconv.Itoa_spec (n : Nat) :
    (strconv.Itoa n).toList ≠ [] ∧ (strconv.Itoa n).toList.all Char.isDigit = true ∧
      decimalValue (strconv.Itoa n).toList = n := by
  obtain ⟨D, hD, hne, hall, hval⟩ := toDigitsCore_spec (n + 1) n [] (by omega)
  have h : (strconv.Itoa n).toList = D := by
    simp [strconv.Itoa, Nat.repr, Nat.toDigits, hD, List.asString]
  rw [h]
  exact ⟨hne, hall, hval⟩

theorem strconv.Itoa_injective (i j : Nat) (h : strconv.Itoa i = strconv.Itoa j) : i = j := by
  have hi := (strconv.Itoa_spec i).2.2
  rw [h, (strconv.Itoa_spec j).2.2] at hi
  exact hi.symm

theorem digitExtension_iff (a b : String) :
    digitExtension a b = true ↔
      ∃ e, e ≠ [] ∧ e.all Char.isDigit = true ∧ b.toList = a.toList ++ e := by
  have hla : a.length = a.toList.length := rfl
  have hlb : b.length = b.toList.length := rfl
  unfold digitExtension
  simp only [Bool.and_eq_true, decide_eq_true_eq, List.isPrefixOf_iff_prefix]
  constructor
  · rintro ⟨⟨⟨e, he⟩, hlen⟩, hall⟩
    refine ⟨e, ?_, ?_, he.symm⟩
    · rintro rfl
      have h1 := congrArg List.length he
      rw [List.length_append, List.length_nil] at h1
      omega
    · have hdrop : b.toList.drop a.length = e := by
        rw [← he, hla, List.drop_left]
      rwa [hdrop] at hall
  · rintro ⟨e, hne, hall, hb⟩
    refine ⟨⟨⟨e, hb.symm⟩, ?_⟩, ?_⟩
    · have h1 := congrArg List.length hb
      have hpos : 0 < e.length := List.length_pos.mpr hne
      rw [List.length_append] at h1
      omega
    · have hdrop : b.toList.drop a.length = e := by
        rw [hb, hla, List.drop_left]
      rwa [hdrop]

/-- Two keys that consist of a base and a decimal index are equal only if bases and
indices are equal, or one base is the other followed by digits. -/
theorem key_eq_cases (a b : String) (i j : Nat)
    (h : a ++ strconv.Itoa i = b ++ strconv.Itoa j) :
    (a = b ∧ i = j) ∨ digitExtension a b = true ∨ digitExtension b a = true := by
  have hl : a.toList ++ (strconv.Itoa i).toList = b.toList ++ (strconv.Itoa j).toList := by
    have := congrArg String.toList h
    simpa using this
  obtain ⟨_, halli, _⟩ := strconv.Itoa_spec i
  obtain ⟨_, hallj, _⟩ := strconv.Itoa_spec j
  rcases List.append_eq_append_iff.mp hl with ⟨e, hb, hi⟩ | ⟨e, ha, hj⟩
  · by_cases he : e = []
    · subst he
      simp only [List.append_nil, List.nil_append] at hb hi
      left
      have hab : a = b := String.ext hb.symm
      refine ⟨hab, strconv.Itoa_injective i j (String.ext hi)⟩
    · right; left
      rw [digitExtension_iff]
      refine ⟨e, he, ?_, hb⟩
      rw [hi, List.all_append, Bool.and_eq_true] at halli
      exact halli.1
  · by_cases he : e = []
    · subst he
      simp only [List.append_nil, List.nil_append] at ha hj
      left
      have hab : a = b := String.ext ha
      refine ⟨hab, strconv.Itoa_injective i j (String.ext hj.symm)⟩
    · right; right
      rw [digitExtension_iff]
      refine ⟨e, he, ?_, ha⟩
      rw [hj, List.all_append, Bool.and_eq_true] at hallj
      exact hallj.1

/-- A key with a decimal index is its base followed by digits. -/
theorem digitExtension_Itoa (a : String) (i : Nat) :
    digitExtension a (a ++ strconv.Itoa i) = true := by
  rw [digitExtension_iff]
  obtain ⟨hne, hall, _⟩ := strconv.Itoa_spec i
  exact ⟨_, hne, hall, by simp⟩

/-! ## Flattening of primitives and shallow collections -/

/-- Among the keys of the first, second and fourth case of the inner type switch, the one
base that is another base followed by digits is `int`, with `int32` and `int64`. -/
theorem flatKeyBase_extension_check :
    ((sliceCaseNames ++ mapCaseNames ++ basicCaseNames).all fun a =>
      (sliceCaseNames ++ mapCaseNames ++ basicCaseNames).all fun b =>
        match flatKeyBase a, flatKeyBase b with
        | some ba, some bb =>
          !digitExtension ba bb || (a == "int" && (b == "int32" || b == "int64"))
        | _, _ => true) = true := by
  decide

theorem flatKeyBase_mem (name base : String) (h : flatKeyBase name = some base) :
    name ∈ sliceCaseNames ++ mapCaseNames ++ basicCaseNames := by
  unfold flatKeyBase at h
  simp only [List.mem_append]
  split_ifs at h with h1 h2 h3
  · exact Or.inl (Or.inl h1)
  · exact Or.inl (Or.inr h2)
  · exact Or.inr h3

theorem flatKeyBase_extension (a b ba bb : String) (ha : flatKeyBase a = some ba)
    (hb : flatKeyBase b = some bb) (h : digitExtension ba bb = true) :
    a = "int" ∧ (b = "int32" ∨ b = "int64") := by
  have hc := flatKeyBase_extension_check
  rw [List.all_eq_true] at hc
  have hc' := hc a (flatKeyBase_mem a ba ha)
  rw [List.all_eq_true] at hc'
  have hc'' := hc' b (flatKeyBase_mem b bb hb)
  rw [ha, hb] at hc''
  simpa [h] using hc''

/-- The keys of two distinct positions that hold primitives or shallow collections are
distinct, unless one position holds an `int` and the other an `int32` or `int64`. -/
theorem flatKey_ne (i j : Nat) (n₁ n₂ k₁ k₂ : String) (hij : i ≠ j)
    (h₁ : flatKey i n₁ = some k₁) (h₂ : flatKey j n₂ = some k₂) (hmix : ¬ mixesInt n₁ n₂) :
    k₁ ≠ k₂ := by
  unfold flatKey at h₁ h₂
  cases hb₁ : flatKeyBase n₁ with
  | none => simp [hb₁] at h₁
  | some b₁ =>
    cases hb₂ : flatKeyBase n₂ with
    | none => simp [hb₂] at h₂
    | some b₂ =>
      simp only [hb₁, hb₂, Option.map_some', Option.some.injEq] at h₁ h₂
      subst h₁ h₂
      intro heq
      rcases key_eq_cases b₁ b₂ i j heq with ⟨_, h⟩ | h | h
      · exact hij h
      · exact hmix (Or.inl (flatKeyBase_extension n₁ n₂ b₁ b₂ hb₁ hb₂ h))
      · exact hmix (Or.inr (flatKeyBase_extension n₂ n₁ b₂ b₁ hb₂ hb₁ h))

/-- An element that has a key is stored in `valsData` under that key, and nothing else
changes, when `valsData` is not the nil map. -/
theorem flattenStep_flatKey (i : Nat) (v : GoValue) (st : FlattenState) (k : String)
    (h : v.flatKey i = some k) (hnil : st.valsNil = false) :
    flattenStep i v st = some { st with valsData := st.valsData.set k (Slot.val v) } := by
  cases v with
  | dict m => simp [GoValue.flatKey] at h
  | nilDict =>
    have hm : genericMapName ∉ sliceCaseNames ∧ genericMapName ∉ mapCaseNames ∧
        genericMapName ∉ basicCaseNames := by decide
    simp [GoValue.flatKey, reflect.TypeOf, flatKey, flatKeyBase, hm] at h
  | nil => simp [GoValue.flatKey, reflect.TypeOf] at h
  | slice xs =>
    simp only [GoValue.flatKey, reflect.TypeOf, Option.some_bind, flatKey] at h
    have hm : genericSliceName ∈ sliceCaseNames := by decide
    simp only [flatKeyBase, hm, if_true, Option.map_some', Option.some.injEq] at h
    simp [flattenStep, reflect.TypeOf, hm, hnil, ← h]
  | other t id =>
    simp only [GoValue.flatKey, reflect.TypeOf, Option.some_bind, flatKey] at h
    unfold flatKeyBase at h
    unfold flattenStep
    simp only [reflect.TypeOf]
    split_ifs at h with h1 h2 h3
    · simp only [Option.map_some', Option.some.injEq] at h
      simp [h1, hnil, ← h]
    · simp only [Option.map_some', Option.some.injEq] at h
      simp [h1, h2, hnil, ← h]
    · simp only [Option.map_some', Option.some.injEq] at h
      simp [h1, h2, h3, hnil, ← h]
    · simp at h

theorem flatKey_isSome (i j : Nat) (name : String) (h : (flatKey i name).isSome = true) :
    ∃ key, flatKey j name = some key := by
  unfold flatKey at h ⊢
  cases hb : flatKeyBase name with
  | none => simp [hb] at h
  | some b => exact ⟨_, rfl⟩

theorem GoValue.flatKey_of_keyed (v : GoValue) (i : Nat) (h : v.keyed = true) :
    ∃ key, v.flatKey i = some key ∧ roulette.flatKey i v.typeString = some key := by
  unfold GoValue.keyed at h
  cases v with
  | dict m => simp [GoValue.flatKey] at h
  | nil => simp [GoValue.flatKey, reflect.TypeOf] at h
  | nilDict =>
    simp only [GoValue.flatKey, reflect.TypeOf, Option.some_bind, GoValue.typeString] at h ⊢
    obtain ⟨key, hkey⟩ := flatKey_isSome 0 i _ h
    exact ⟨key, hkey, hkey⟩
  | slice xs =>
    simp only [GoValue.flatKey, reflect.TypeOf, Option.some_bind, GoValue.typeString] at h ⊢
    obtain ⟨key, hkey⟩ := flatKey_isSome 0 i _ h
    exact ⟨key, hkey, hkey⟩
  | other t id =>
    simp only [GoValue.flatKey, reflect.TypeOf, Option.some_bind, GoValue.typeString] at h ⊢
    obtain ⟨key, hkey⟩ := flatKey_isSome 0 i _ h
    exact ⟨key, hkey, hkey⟩

/-- The loop of the flattener on a list of primitives and shallow collections: it does
not panic, it leaves the nested map alone, a key that no element has keeps what it held,
and the key of an element holds that element unless a later element has the same key. -/
theorem flattenLoop_keyed :
    ∀ (xs : List GoValue) (i : Nat) (st : FlattenState),
      (∀ v ∈ xs, v.keyed = true) → st.valsNil = false →
      ∃ st', flattenLoop i xs st = some st' ∧ st'.nestedMap = st.nestedMap ∧
        st'.valsNil = false ∧
        (∀ key, (∀ (p : Nat) (v : GoValue), xs[p]? = some v → v.flatKey (i + p) ≠ some key) →
          st'.valsData key = st.valsData key) ∧
        (∀ (p : Nat) (v : GoValue) key, xs[p]? = some v → v.flatKey (i + p) = some key →
          (∀ (q : Nat) (w : GoValue), p < q → xs[q]? = some w → w.flatKey (i + q) ≠ some key) →
          st'.valsData key = some (Slot.val v)) := by
  intro xs
  induction xs with
  | nil =>
    intro i st _ hnil
    exact ⟨st, rfl, rfl, hnil, fun _ _ => rfl, fun p v key h => by simp at h⟩
  | cons x xs ih =>
    intro i st hk hnil
    obtain ⟨k, hxk, _⟩ := GoValue.flatKey_of_keyed x i (hk x (List.mem_cons_self x xs))
    obtain ⟨st', hst', hn, hnil', hA, hB⟩ :=
      ih (i + 1) { st with valsData := st.valsData.set k (Slot.val x) }
        (fun v hv => hk v (List.mem_cons_of_mem x hv)) hnil
    refine ⟨st', ?_, hn, hnil', ?_, ?_⟩
    · simp only [flattenLoop, flattenStep_flatKey i x st k hxk hnil, hst']
    · intro key hkey
      rw [hA key]
      · have hne : key ≠ k := by
          intro h
          have := hkey 0 x (by simp)
          rw [Nat.add_zero, hxk, h] at this
          exact this rfl
        simp [GoMap.set, hne]
      · intro p v hp
        have := hkey (p + 1) v (by simpa using hp)
        rwa [show i + (p + 1) = i + 1 + p by omega] at this
    · intro p v key hp hv hlater
      cases p with
      | zero =>
        simp only [List.getElem?_cons_zero, Option.some.injEq] at hp
        subst hp
        rw [Nat.add_zero, hxk, Option.some.injEq] at hv
        subst hv
        rw [hA k]
        · simp [GoMap.set]
        · intro q w hq
          have := hlater (q + 1) w (by omega) (by simpa using hq)
          rwa [show i + (q + 1) = i + 1 + q by omega] at this
      | succ p =>
        simp only [List.getElem?_cons_succ] at hp
        refine hB p v key hp (by rwa [show i + (p + 1) = i + 1 + p by omega] at hv) ?_
        intro q w hpq hq
        have := hlater (q + 1) w (by omega) (by simpa using hq)
        rwa [show i + (q + 1) = i + 1 + q by omega] at this

set_option maxRecDepth 100000 in
/-- C14 as stated fails: in a list with an `int32` at position 0 and an `int` at position
320, both positions have the key `int320`, and the map that `getTemplateData` stores
holds the `int` of position 320 under it: the `int32` of position 0 is overwritten. -/
theorem TextTemplateRuleset.getTemplateData_flat_keys_collide :
    (collidingInts[0]?).bind (fun v => v.flatKey 0) = some "int320" ∧
    (collidingInts[320]?).bind (fun v => v.flatKey 320) = some "int320" ∧
    (collidingInts[0]?).bind GoValue.ident = some 1 ∧
    ((((mkRuleset false ["int"] [] 0).getTemplateData mapBufGet
        (GoValue.slice collidingInts)).bind (fun d => d "data")).bind
          (fun v => v.entry "int320")).bind GoValue.ident = some 7 := by
  decide

/-- C14, amended: the keys under which `getTemplateData` stores two distinct positions
that hold primitive values or shallow built-in collections (type name followed by the
decimal index, or type name, `slice` and index) are distinct unless one position holds an
`int` and the other an `int32` or `int64`; and for a list of such values in which no
`int` comes with an `int32` or `int64`, the map stored under `DataKey` holds each element
under the key of its position (if that key is not `ResultKey`), so that no value
overwrites another. -/
theorem TextTemplateRuleset.getTemplateData_flat_keys (t : TextTemplateRuleset)
    (tmplData : GoMap GoValue) (xs : List GoValue)
    (hkeyed : ∀ v ∈ xs, v.keyed = true)
    (hmix : ∀ v ∈ xs, ∀ w ∈ xs, ¬ mixesInt v.typeString w.typeString) :
    (∀ (i j : Nat) (n₁ n₂ k₁ k₂ : String), i ≠ j → flatKey i n₁ = some k₁ →
      flatKey j n₂ = some k₂ → ¬ mixesInt n₁ n₂ → k₁ ≠ k₂) ∧
    ∃ tmplData' m, t.getTemplateData tmplData (GoValue.slice xs) = some tmplData' ∧
      tmplData' t.DataKey = some (GoValue.dict m) ∧
      ∀ (p : Nat) (v : GoValue), xs[p]? = some v →
        ∃ key, v.flatKey p = some key ∧ (key ≠ t.ResultKey → m key = some v) := by
  refine ⟨fun i j n₁ n₂ k₁ k₂ => flatKey_ne i j n₁ n₂ k₁ k₂, ?_⟩
  obtain ⟨st', hst', _, hnil', _, hB⟩ :=
    flattenLoop_keyed xs 0 FlattenState.init hkeyed rfl
  refine ⟨tmplData.set t.DataKey (GoValue.dict
      (resolveVals (st'.valsData.set t.ResultKey (Slot.val t.config.result)) st'.nestedMap)),
    resolveVals (st'.valsData.set t.ResultKey (Slot.val t.config.result)) st'.nestedMap,
    ?_, by simp [GoMap.set], ?_⟩
  · simp [TextTemplateRuleset.getTemplateData, flattenVals, hst', hnil']
  · intro p v hp
    have hv : v ∈ xs := List.getElem?_mem hp
    obtain ⟨key, hkey, hkey'⟩ := GoValue.flatKey_of_keyed v p (hkeyed v hv)
    refine ⟨key, hkey, ?_⟩
    intro hres
    have hstored : st'.valsData key = some (Slot.val v) := by
      refine hB p v key hp (by rwa [Nat.zero_add]) ?_
      intro q w hpq hq
      rw [Nat.zero_add]
      have hw : w ∈ xs := List.getElem?_mem hq
      obtain ⟨key₂, hkey₂, hkey₂'⟩ := GoValue.flatKey_of_keyed w q (hkeyed w hw)
      rw [hkey₂]
      intro heq
      rw [Option.some.injEq] at heq
      exact flatKey_ne p q v.typeString w.typeString key key₂ (by omega) hkey' hkey₂'
        (hmix v hv w hw) heq.symm
    simp [resolveVals, GoMap.set, hres, hstored]

/-- An instance of C14, amended: in the list of the int `7`, the bool `true` and a
`[]string`, the three elements are stored under `int0`, `bool1` and `[]stringslice2`. -/
theorem TextTemplateRuleset.getTemplateData_flat_keys_witness :
    ∃ tmplData' m,
      (mkRuleset false ["int"] [] 0).getTemplateData mapBufGet
        (GoValue.slice [goInt 7, GoValue.other ⟨"bool", Kind.Bool, "", none⟩ 1,
          GoValue.other ⟨"[]string", Kind.Slice, "", some "string"⟩ 2]) = some tmplData' ∧
      tmplData' "data" = some (GoValue.dict m) ∧
      m "int0" = some (goInt 7) ∧
      m "bool1" = some (GoValue.other ⟨"bool", Kind.Bool, "", none⟩ 1) ∧
      m "[]stringslice2" = some (GoValue.other ⟨"[]string", Kind.Slice, "", some "string"⟩ 2) := by
  obtain ⟨tmplData', m, h1, h2, h3⟩ :=
    (TextTemplateRuleset.getTemplateData_flat_keys (mkRuleset false ["int"] [] 0) mapBufGet
      [goInt 7, GoValue.other ⟨"bool", Kind.Bool, "", none⟩ 1,
        GoValue.other ⟨"[]string", Kind.Slice, "", some "string"⟩ 2]
      (by decide) (by decide)).2
  refine ⟨tmplData', m, h1, h2, ?_, ?_, ?_⟩
  · obtain ⟨key, hk, hm⟩ := h3 0 (goInt 7) rfl
    have hk' : key = "int0" := by
      have : (goInt 7).flatKey 0 = some "int0" := by decide
      rw [this] at hk
      exact (Option.some.inj hk).symm
    subst hk'
    exact hm (by decide)
  · obtain ⟨key, hk, hm⟩ := h3 1 (GoValue.other ⟨"bool", Kind.Bool, "", none⟩ 1) rfl
    have hk' : key = "bool1" := by
      have : (GoValue.other ⟨"bool", Kind.Bool, "", none⟩ 1).flatKey 1 = some "bool1" := by
        decide
      rw [this] at hk
      exact (Option.some.inj hk).symm
    subst hk'
    exact hm (by decide)
  · obtain ⟨key, hk, hm⟩ :=
      h3 2 (GoValue.other ⟨"[]string", Kind.Slice, "", some "string"⟩ 2) rfl
    have hk' : key = "[]stringslice2" := by
      have : (GoValue.other ⟨"[]string", Kind.Slice, "", some "string"⟩ 2).flatKey 2
          = some "[]stringslice2" := by decide
      rw [this] at hk
      exact (Option.some.inj hk).symm
    subst hk'
    exact hm (by decide)

/-! ## Flattening of a generic map -/

theorem flattenLoop_append :
    ∀ (pre post : List GoValue) (i : Nat) (st : FlattenState),
      flattenLoop i (pre ++ post) st =
        (flattenLoop i pre st).bind (fun st' => flattenLoop (i + pre.length) post st') := by
  intro pre
  induction pre with
  | nil => intro post i st; simp [flattenLoop]
  | cons x xs ih =>
    intro post i st
    simp only [List.cons_append, flattenLoop, List.length_cons]
    cases flattenStep i x st with
    | none => rfl
    | some st' =>
      have h := ih post (i + 1) st'
      rw [show i + 1 + xs.length = i + (xs.length + 1) by omega] at h
      simpa using h

/-- C17 as stated fails: in the list of a pointer to an `a.Person`, a generic map and a
pointer to an `a.Car`, the `Person`, flattened before the map, is still in the map that
`getTemplateData` stores: the nested map is kept across the generic map and is stored
again, under `a`, for the `Car`; and for the list whose only element is the nil generic
map, `getTemplateData` stores nothing: the write of line 261 into the nil map panics. -/
theorem TextTemplateRuleset.getTemplateData_genericMap_keeps_nested :
    (((((mkRuleset false ["int"] [] 0).getTemplateData mapBufGet
        (GoValue.slice [goPtr "a.Person" 1,
          GoValue.dict ((GoMap.empty : GoMap GoValue).set "x" (goInt 5)),
          goPtr "a.Car" 2])).bind (fun d => d "data")).bind
            (fun v => v.entry "a")).bind (fun v => v.entry "Person")).bind GoValue.ident
      = some 1 ∧
    ((mkRuleset false ["int"] [] 0).getTemplateData mapBufGet
        (GoValue.slice [GoValue.nilDict])).isSome = false := by
  decide

set_option linter.unusedVariables false in
/-- C17, amended: for a list input that contains a generic map element `m` which is not
nil and does not occur earlier in the list, and whose elements before `m` are flattened
without a panic, right after `m` the working flattened map `valsData` consists of exactly
the entries of `m`, whatever the elements before `m` have put into it (the nested map of
the composite values and the other variables of the loop are kept); when `m` is the last
element, the map stored under `DataKey` consists of the entries of `m` as top-level keys
and the `ResultKey` entry, which replaces an entry of `m` under that key; so it does for
the list whose only element is `m`. The condition that `m` does not occur earlier is the
one under which the by-value embedding of line 203 is what the code does. -/
theorem TextTemplateRuleset.getTemplateData_genericMap (t : TextTemplateRuleset)
    (tmplData : GoMap GoValue) (m : GoMap GoValue) (pre : List GoValue)
    (hfirst : ∀ v ∈ pre, v ≠ GoValue.dict m)
    (hpre : (flattenLoop 0 pre FlattenState.init).isSome = true) :
    (∃ stPre, flattenLoop 0 pre FlattenState.init = some stPre ∧
      flattenLoop 0 (pre ++ [GoValue.dict m]) FlattenState.init =
        some { stPre with valsData := fun k => (m k).map Slot.val, valsNil := false }) ∧
    (∃ tmplData' m', t.getTemplateData tmplData (GoValue.slice (pre ++ [GoValue.dict m]))
        = some tmplData' ∧
      tmplData' t.DataKey = some (GoValue.dict m') ∧
      ∀ k, m' k = if k = t.ResultKey then some t.config.result else m k) ∧
    ∃ tmplData' m', t.getTemplateData tmplData (GoValue.slice [GoValue.dict m])
        = some tmplData' ∧
      tmplData' t.DataKey = some (GoValue.dict m') ∧
      ∀ k, m' k = if k = t.ResultKey then some t.config.result else m k := by
  have hlast : ∀ pre : List GoValue, ∀ stPre : FlattenState,
      flattenLoop 0 pre FlattenState.init = some stPre →
      flattenLoop 0 (pre ++ [GoValue.dict m]) FlattenState.init =
          some { stPre with valsData := fun k => (m k).map Slot.val, valsNil := false } ∧
      ∃ tmplData' m', t.getTemplateData tmplData (GoValue.slice (pre ++ [GoValue.dict m]))
          = some tmplData' ∧
        tmplData' t.DataKey = some (GoValue.dict m') ∧
        ∀ k, m' k = if k = t.ResultKey then some t.config.result else m k := by
    intro pre stPre hst
    have hloop : flattenLoop 0 (pre ++ [GoValue.dict m]) FlattenState.init =
        some { stPre with valsData := fun k => (m k).map Slot.val, valsNil := false } := by
      rw [flattenLoop_append, hst]
      simp [flattenLoop, flattenStep]
    refine ⟨hloop, tmplData.set t.DataKey (GoValue.dict (resolveVals
        (GoMap.set (fun k => (m k).map Slot.val) t.ResultKey (Slot.val t.config.result))
        stPre.nestedMap)),
      resolveVals
        (GoMap.set (fun k => (m k).map Slot.val) t.ResultKey (Slot.val t.config.result))
        stPre.nestedMap, ?_, ?_, ?_⟩
    · simp [TextTemplateRuleset.getTemplateData, flattenVals, hloop]
    · simp [GoMap.set]
    · intro k
      by_cases hk : k = t.ResultKey
      · simp [resolveVals, GoMap.set, hk]
      · simp only [resolveVals, GoMap.set, hk, if_false]
        cases m k <;> rfl
  obtain ⟨stPre, hst⟩ := Option.isSome_iff_exists.mp hpre
  refine ⟨⟨stPre, hst, (hlast pre stPre hst).1⟩, (hlast pre stPre hst).2, ?_⟩
  have := (hlast [] FlattenState.init (by simp [flattenLoop])).2
  simpa using this

/-- An instance of C17, amended: in the list of the int `7` and the generic map with the
entry `x`, the map stored under `DataKey` holds the entry `x` and the result entry, and
nothing under the key `int0` of the int. -/
theorem TextTemplateRuleset.getTemplateData_genericMap_witness :
    ∃ tmplData' m',
      (mkRuleset false ["int"] [] 0).getTemplateData mapBufGet
        (GoValue.slice
          ([goInt 7] ++ [GoValue.dict ((GoMap.empty : GoMap GoValue).set "x" (goInt 5))]))
        = some tmplData' ∧
      tmplData' "data" = some (GoValue.dict m') ∧
      m' "x" = some (goInt 5) ∧ m' "result" = some GoValue.nil ∧ m' "int0" = none := by
  obtain ⟨tmplData', m', h1, h2, h3⟩ :=
    (TextTemplateRuleset.getTemplateData_genericMap (mkRuleset false ["int"] [] 0) mapBufGet
      ((GoMap.empty : GoMap GoValue).set "x" (goInt 5)) [goInt 7]
      (by
        intro v hv h
        rw [List.mem_singleton] at hv
        subst hv
        simp [goInt] at h)
      (by decide)).2.1
  refine ⟨tmplData', m', h1, h2, ?_, ?_, ?_⟩
  · rw [h3]; rfl
  · rw [h3]; rfl
  · rw [h3]; rfl

/-! ## Flattening of composite values -/

theorem strings.splitAux_ne_nil (sep : Char) :
    ∀ (cs cur : List Char), strings.splitAux sep cs cur ≠ [] := by
  intro cs
  induction cs with
  | nil => intro cur; simp [strings.splitAux]
  | cons c cs ih =>
    intro cur
    unfold strings.splitAux
    split
    · simp
    · exact ih _

theorem strings.Split_ne_nil (s : String) (sep : Char) : strings.Split s sep ≠ [] := by
  unfold strings.Split
  intro h
  exact strings.splitAux_ne_nil sep s.toList [] (List.map_eq_nil_iff.mp h)

/-- A composite value whose type has no package path is put into the nested map under its
key followed by the next index of that key, and under the key itself when the key is
new; `valsData`, when it is not the nil map, holds the nested map under the package path
of the value. -/
theorem flattenStep_composite (i : Nat) (v : GoValue) (st : FlattenState) (tn : String)
    (h : v.compositeTypeName = some tn) (hnil : st.valsNil = false) :
    flattenStep i v st = some
      { valsData := st.valsData.set v.packagePath Slot.nested,
        typeArrayIndex := st.typeArrayIndex.set v.nestedKey (st.nextIndex v.nestedKey),
        pkgPaths := strings.Split tn '.',
        nestedMap :=
          (match st.typeArrayIndex v.nestedKey with
            | none => st.nestedMap.set v.nestedKey v
            | some _ => st.nestedMap).set
            (v.nestedKey ++ strconv.Itoa (st.nextIndex v.nestedKey)) v,
        valsNil := false } := by
  cases v with
  | nil => simp [GoValue.compositeTypeName] at h
  | slice xs => simp [GoValue.compositeTypeName] at h
  | dict m => simp [GoValue.compositeTypeName] at h
  | nilDict => simp [GoValue.compositeTypeName] at h
  | other t id =>
    have hk : (GoValue.other t id).nestedKey = (strings.Split tn '.').getLastD "" := by
      simp only [GoValue.nestedKey, h]
    have hp : (GoValue.other t id).packagePath =
        (strings.Split tn '.').dropLast.foldl (fun acc p => acc ++ p) "" := by
      simp only [GoValue.packagePath, h]
    rw [hk, hp]
    simp only [GoValue.compositeTypeName] at h
    split_ifs at h with h1 h2 h3
    · have hs : t.name ∉ sliceCaseNames := fun hh => h1 (Or.inl hh)
      have hm : t.name ∉ mapCaseNames := fun hh => h1 (Or.inr (Or.inl hh))
      have hb : t.name ∉ basicCaseNames := fun hh => h1 (Or.inr (Or.inr hh))
      have hpk : t.pkgPath = "" := by simpa using h2
      simp only [flattenStep, reflect.TypeOf, hs, hm, hb, if_false, flattenComposite, h3,
        if_true, h, hpk, ne_eq, not_true_eq_false, strings.Split_ne_nil,
        FlattenState.nextIndex, hnil, Bool.false_eq_true]
    · have hs : t.name ∉ sliceCaseNames := fun hh => h1 (Or.inl hh)
      have hm : t.name ∉ mapCaseNames := fun hh => h1 (Or.inr (Or.inl hh))
      have hb : t.name ∉ basicCaseNames := fun hh => h1 (Or.inr (Or.inr hh))
      have hpk : t.pkgPath = "" := by simpa using h2
      rw [Option.some.injEq] at h
      subst h
      simp only [flattenStep, reflect.TypeOf, hs, hm, hb, if_false, flattenComposite, h3,
        hpk, ne_eq, not_true_eq_false, strings.Split_ne_nil, FlattenState.nextIndex, hnil,
        Bool.false_eq_true]

theorem earlierSameKey_zero (xs : List GoValue) (key : String) :
    earlierSameKey xs 0 key = 0 := by
  simp [earlierSameKey]

theorem earlierSameKey_succ (x : GoValue) (xs : List GoValue) (p : Nat) (key : String) :
    earlierSameKey (x :: xs) (p + 1) key =
      (if x.nestedKey = key then 1 else 0) + earlierSameKey xs p key := by
  unfold earlierSameKey
  by_cases h : x.nestedKey = key
  · simp [List.take_succ_cons, List.filter_cons, h]
    omega
  · simp [List.take_succ_cons, List.filter_cons, h]

theorem key_ne_key_Itoa (a : String) (i : Nat) : a ≠ a ++ strconv.Itoa i := by
  intro h
  have h1 := congrArg (fun s => s.toList.length) h
  have hne := (strconv.Itoa_spec i).1
  have hpos : 0 < (strconv.Itoa i).toList.length := List.length_pos.mpr hne
  simp only [String.toList, String.data_append, List.length_append] at h1 hpos
  omega

/-- The loop of the flattener on a list of composite values whose types have no package
path and of whose keys none is another followed by digits: it does not panic; `valsData`
holds the nested map under the package path of every element; a key of the nested map
that no element writes keeps what it held; and every element is in the nested map under
its key followed by its index, the first one of a new key under the key itself too. -/
theorem flattenLoop_composites :
    ∀ (xs : List GoValue) (i : Nat) (st : FlattenState),
      (∀ v ∈ xs, v.compositeTypeName.isSome = true) →
      (∀ v ∈ xs, ∀ w ∈ xs, digitExtension v.nestedKey w.nestedKey = false) →
      st.valsNil = false →
      ∃ st', flattenLoop i xs st = some st' ∧ st'.valsNil = false ∧
        (∀ key, st.valsData key = some Slot.nested → st'.valsData key = some Slot.nested) ∧
        (∀ v ∈ xs, st'.valsData v.packagePath = some Slot.nested) ∧
        (∀ key,
          (∀ v ∈ xs, (key = v.nestedKey → st.typeArrayIndex v.nestedKey ≠ none) ∧
            ∀ m, st.nextIndex v.nestedKey ≤ m → key ≠ v.nestedKey ++ strconv.Itoa m) →
          st'.nestedMap key = st.nestedMap key) ∧
        (∀ (p : Nat) (v : GoValue), xs[p]? = some v →
          st'.nestedMap (v.nestedKey ++
              strconv.Itoa (st.nextIndex v.nestedKey + earlierSameKey xs p v.nestedKey))
            = some v ∧
          (st.typeArrayIndex v.nestedKey = none → earlierSameKey xs p v.nestedKey = 0 →
            st'.nestedMap v.nestedKey = some v)) := by
  intro xs
  induction xs with
  | nil =>
    intro i st _ _ hnil
    exact ⟨st, rfl, hnil, fun _ h => h, fun v hv => absurd hv (List.not_mem_nil v),
      fun _ _ => rfl, fun p v h => by simp at h⟩
  | cons x xs ih =>
    intro i st hc hclash hnil
    obtain ⟨tn, htn⟩ := Option.isSome_iff_exists.mp (hc x (List.mem_cons_self x xs))
    obtain ⟨st1, hstep, hnil1, hvals, htai, hnm⟩ :
        ∃ st1, flattenStep i x st = some st1 ∧ st1.valsNil = false ∧
          st1.valsData = st.valsData.set x.packagePath Slot.nested ∧
          st1.typeArrayIndex =
            st.typeArrayIndex.set x.nestedKey (st.nextIndex x.nestedKey) ∧
          st1.nestedMap =
            (match st.typeArrayIndex x.nestedKey with
              | none => st.nestedMap.set x.nestedKey x
              | some _ => st.nestedMap).set
              (x.nestedKey ++ strconv.Itoa (st.nextIndex x.nestedKey)) x :=
      ⟨_, flattenStep_composite i x st tn htn hnil, rfl, rfl, rfl, rfl⟩
    -- the next index of a key after the step
    have hnext : ∀ key, st1.nextIndex key =
        if key = x.nestedKey then st.nextIndex x.nestedKey + 1 else st.nextIndex key := by
      intro key
      by_cases hk : key = x.nestedKey
      · simp [FlattenState.nextIndex, htai, GoMap.set, hk]
      · simp [FlattenState.nextIndex, htai, GoMap.set, hk]
    have htai_ne : ∀ key, st.typeArrayIndex key ≠ none → st1.typeArrayIndex key ≠ none := by
      intro key hk
      rw [htai]
      by_cases hkx : key = x.nestedKey
      · simp [GoMap.set, hkx]
      · simpa [GoMap.set, hkx] using hk
    have hclash' : ∀ v ∈ xs, ∀ w ∈ xs, digitExtension v.nestedKey w.nestedKey = false :=
      fun v hv w hw => hclash v (List.mem_cons_of_mem x hv) w (List.mem_cons_of_mem x hw)
    obtain ⟨st', hst', hnil', hVp, hV, hF, hS⟩ :=
      ih (i + 1) st1 (fun v hv => hc v (List.mem_cons_of_mem x hv)) hclash' hnil1
    -- a key that the later elements do not write
    have hlater_index : ∀ w ∈ xs, ∀ m, st1.nextIndex w.nestedKey ≤ m →
        x.nestedKey ++ strconv.Itoa (st.nextIndex x.nestedKey) ≠
          w.nestedKey ++ strconv.Itoa m := by
      intro w hw m hm heq
      rcases key_eq_cases _ _ _ _ heq with ⟨hk, hidx⟩ | hd | hd
      · rw [hnext, if_pos hk.symm] at hm
        omega
      · rw [hclash x (List.mem_cons_self x xs) w (List.mem_cons_of_mem x hw)] at hd
        exact absurd hd (by simp)
      · rw [hclash w (List.mem_cons_of_mem x hw) x (List.mem_cons_self x xs)] at hd
        exact absurd hd (by simp)
    have hlater_key : ∀ w ∈ xs, ∀ m,
        x.nestedKey ++ strconv.Itoa m ≠ w.nestedKey := by
      intro w hw m heq
      have hd := digitExtension_Itoa x.nestedKey m
      rw [heq, hclash x (List.mem_cons_self x xs) w (List.mem_cons_of_mem x hw)] at hd
      exact absurd hd (by simp)
    have hkey_later : ∀ w ∈ xs, ∀ m,
        x.nestedKey ≠ w.nestedKey ++ strconv.Itoa m ∨ w.nestedKey = x.nestedKey := by
      intro w hw m
      by_cases hwx : w.nestedKey = x.nestedKey
      · exact Or.inr hwx
      · left
        intro heq
        have hd := digitExtension_Itoa w.nestedKey m
        rw [← heq, hclash w (List.mem_cons_of_mem x hw) x (List.mem_cons_self x xs)] at hd
        exact absurd hd (by simp)
    refine ⟨st', ?_, hnil', ?_, ?_, ?_, ?_⟩
    · simp only [flattenLoop, hstep, hst']
    · intro key hkey
      apply hVp
      rw [hvals]
      by_cases hk : key = x.packagePath
      · simp [GoMap.set, hk]
      · simpa [GoMap.set, hk] using hkey
    · intro v hv
      rcases List.mem_cons.mp hv with hvx | hvxs
      · subst hvx
        apply hVp
        rw [hvals]
        simp [GoMap.set]
      · exact hV v hvxs
    · intro key hkey
      have hx := hkey x (List.mem_cons_self x xs)
      rw [hF key]
      · rw [hnm]
        have h1 : key ≠ x.nestedKey ++ strconv.Itoa (st.nextIndex x.nestedKey) :=
          hx.2 _ (le_refl _)
        cases htx : st.typeArrayIndex x.nestedKey with
        | none =>
          have h2 : key ≠ x.nestedKey := fun h => hx.1 h htx
          simp [GoMap.set, h1, h2]
        | some c => simp [GoMap.set, h1]
      · intro w hw
        have hwk := hkey w (List.mem_cons_of_mem x hw)
        refine ⟨fun h => htai_ne _ (hwk.1 h), ?_⟩
        intro m hm
        apply hwk.2
        rw [hnext] at hm
        split at hm
        · rename_i hwx
          rw [hwx]
          omega
        · exact hm
    · intro p v hp
      cases p with
      | zero =>
        simp only [List.getElem?_cons_zero, Option.some.injEq] at hp
        subst hp
        rw [earlierSameKey_zero, Nat.add_zero]
        constructor
        · rw [hF]
          · rw [hnm]
            simp [GoMap.set]
          · intro w hw
            exact ⟨fun h => absurd h (hlater_key w hw _), hlater_index w hw⟩
        · intro hnone _
          rw [hF]
          · rw [hnm, hnone]
            have := key_ne_key_Itoa x.nestedKey (st.nextIndex x.nestedKey)
            simp [GoMap.set, this]
          · intro w hw
            refine ⟨fun h => ?_, fun m _ => ?_⟩
            · rw [← h, htai]
              simp [GoMap.set]
            · rcases hkey_later w hw m with h | h
              · exact h
              · rw [h]
                exact key_ne_key_Itoa x.nestedKey m
      | succ p =>
        simp only [List.getElem?_cons_succ] at hp
        obtain ⟨h1, h2⟩ := hS p v hp
        rw [earlierSameKey_succ]
        constructor
        · rw [hnext] at h1
          by_cases hvx : v.nestedKey = x.nestedKey
          · rw [if_pos hvx] at h1
            rw [if_pos hvx.symm]
            rw [hvx] at h1 ⊢
            rwa [show st.nextIndex x.nestedKey + (1 + earlierSameKey xs p x.nestedKey) =
              st.nextIndex x.nestedKey + 1 + earlierSameKey xs p x.nestedKey by omega]
          · rw [if_neg hvx] at h1
            rw [if_neg (fun h => hvx h.symm), Nat.zero_add]
            exact h1
        · intro hnone hzero
          have hvx : ¬ x.nestedKey = v.nestedKey := by
            intro h
            rw [if_pos h] at hzero
            omega
          rw [if_neg hvx, Nat.zero_add] at hzero
          apply h2 _ hzero
          rw [htai]
          have hvx' : ¬ v.nestedKey = x.nestedKey := fun h => hvx h.symm
          simp only [GoMap.set, hvx', if_false]
          exact hnone

/-- C15 as stated fails: in the list of a pointer to an `a.Person`, a pointer to an
`a.Person1` and a second pointer to an `a.Person`, the first value of the type `Person1`
is put under its un-suffixed key `Person1`, and the second `Person`, stored under
`Person` followed by `1`, overwrites it there. -/
theorem TextTemplateRuleset.getTemplateData_composites_collide :
    (((((mkRuleset false ["int"] [] 0).getTemplateData mapBufGet
        (GoValue.slice [goPtr "a.Person" 1, goPtr "a.Person1" 2])).bind
          (fun d => d "data")).bind (fun v => v.entry "a")).bind
            (fun v => v.entry "Person1")).bind GoValue.ident = some 2 ∧
    (((((mkRuleset false ["int"] [] 0).getTemplateData mapBufGet
        (GoValue.slice [goPtr "a.Person" 1, goPtr "a.Person1" 2, goPtr "a.Person" 3])).bind
          (fun d => d "data")).bind (fun v => v.entry "a")).bind
            (fun v => v.entry "Person1")).bind GoValue.ident = some 3 := by
  decide

/-- C15, amended: for every list of composite values whose dynamic types have no package
path (pointers to structs, for one), told apart by the last segment of their type name,
the key, and such that no key is another key followed by decimal digits: the map stored
under `DataKey` holds one nested map under the package path of every value (if the path
is not `ResultKey`), and in that nested map every value is stored under its key followed
by the decimal number of earlier values with the same key, the first value of a key under
the un-suffixed key too; so no entry of a value is overwritten by another value. -/
theorem TextTemplateRuleset.getTemplateData_composites (t : TextTemplateRuleset)
    (tmplData : GoMap GoValue) (xs : List GoValue)
    (hcomp : ∀ v ∈ xs, v.compositeTypeName.isSome = true)
    (hclash : ∀ v ∈ xs, ∀ w ∈ xs, digitExtension v.nestedKey w.nestedKey = false) :
    ∃ tmplData' m nested, t.getTemplateData tmplData (GoValue.slice xs) = some tmplData' ∧
      tmplData' t.DataKey = some (GoValue.dict m) ∧
      ∀ (p : Nat) (v : GoValue), xs[p]? = some v →
        (v.packagePath ≠ t.ResultKey → m v.packagePath = some (GoValue.dict nested)) ∧
        nested (v.nestedKey ++ strconv.Itoa (earlierSameKey xs p v.nestedKey)) = some v ∧
        (earlierSameKey xs p v.nestedKey = 0 → nested v.nestedKey = some v) := by
  obtain ⟨st', hst', hnil', _, hV, _, hS⟩ :=
    flattenLoop_composites xs 0 FlattenState.init hcomp hclash rfl
  refine ⟨tmplData.set t.DataKey (GoValue.dict
      (resolveVals (st'.valsData.set t.ResultKey (Slot.val t.config.result)) st'.nestedMap)),
    resolveVals (st'.valsData.set t.ResultKey (Slot.val t.config.result)) st'.nestedMap,
    st'.nestedMap, ?_, by simp [GoMap.set], ?_⟩
  · simp [TextTemplateRuleset.getTemplateData, flattenVals, hst', hnil']
  · intro p v hp
    obtain ⟨h1, h2⟩ := hS p v hp
    have hnext : ∀ key, FlattenState.init.nextIndex key = 0 := fun key => rfl
    rw [hnext, Nat.zero_add] at h1
    refine ⟨?_, h1, h2 rfl⟩
    intro hres
    simp [resolveVals, GoMap.set, hres, hV v (List.getElem?_mem hp)]

/-- An instance of C15, amended: in the list of a pointer to an `a.Person`, a pointer to
an `a.Car` and a second pointer to an `a.Person`, the nested map stored under `a` holds
the first `Person` under `Person`, the `Car` under `Car` and the second `Person` under
`Person1`. -/
theorem TextTemplateRuleset.getTemplateData_composites_witness :
    ∃ tmplData' m nested,
      (mkRuleset false ["int"] [] 0).getTemplateData mapBufGet
        (GoValue.slice [goPtr "a.Person" 1, goPtr "a.Car" 2, goPtr "a.Person" 3])
        = some tmplData' ∧
      tmplData' "data" = some (GoValue.dict m) ∧
      m "a" = some (GoValue.dict nested) ∧
      nested "Person" = some (goPtr "a.Person" 1) ∧
      nested "Car" = some (goPtr "a.Car" 2) ∧
      nested "Person1" = some (goPtr "a.Person" 3) := by
  obtain ⟨tmplData', m, nested, h1, h2, h3⟩ :=
    TextTemplateRuleset.getTemplateData_composites (mkRuleset false ["int"] [] 0) mapBufGet
      [goPtr "a.Person" 1, goPtr "a.Car" 2, goPtr "a.Person" 3] (by decide) (by decide)
  have hk1 : (goPtr "a.Person" 1).nestedKey = "Person" := by decide
  have hk2 : (goPtr "a.Car" 2).nestedKey = "Car" := by decide
  have hk3 : (goPtr "a.Person" 3).nestedKey = "Person" := by decide
  have hp1 : (goPtr "a.Person" 1).packagePath = "a" := by decide
  have he1 : earlierSameKey [goPtr "a.Person" 1, goPtr "a.Car" 2, goPtr "a.Person" 3] 0
      "Person" = 0 := by decide
  have he2 : earlierSameKey [goPtr "a.Person" 1, goPtr "a.Car" 2, goPtr "a.Person" 3] 1
      "Car" = 0 := by decide
  have he3 : earlierSameKey [goPtr "a.Person" 1, goPtr "a.Car" 2, goPtr "a.Person" 3] 2
      "Person" = 1 := by decide
  have hs : "Person" ++ strconv.Itoa 1 = "Person1" := by decide
  obtain ⟨a1, _, c1⟩ := h3 0 (goPtr "a.Person" 1) rfl
  obtain ⟨_, _, c2⟩ := h3 1 (goPtr "a.Car" 2) rfl
  obtain ⟨_, b3, _⟩ := h3 2 (goPtr "a.Person" 3) rfl
  rw [hk1, he1] at c1
  rw [hk2, he2] at c2
  rw [hk3, he3, hs] at b3
  rw [hp1] at a1
  exact ⟨tmplData', m, nested, h1, h2, a1 (by decide), c1 rfl, c2 rfl, b3⟩

end roulette
